import Mathlib

/-!
# Generic red-black tree (`RBTree.h`): embedding and verification

The C++ class `RBTree<T>` stores nodes linked by `left`, `right` and `p` (parent)
pointers, with one shared sentinel `nullNode` standing for every leaf.

Embedding.

* A subtree is a value of `Node α`: `nullNode` is the sentinel (black, its own
  `left` and `right` are `nullptr`), `node c l v r` is a real node.
* A `Node*` to a node inside the tree is the subtree at that node together with
  its chain of parents (`p`, `p->p`, ...): a `Path`, whose head is the parent and
  whose last frame is the root. The empty path is `p == nullptr`.  The sentinel
  carries a parent link as well (`rbTransplant` sets `nullNode->p`), which is the
  path stored beside a `nullNode` focus.
* A dereference of `nullptr` is undefined behaviour in C++; the embedded functions
  return `none` there.  Loops take a fuel argument and the callers supply enough.
-/

namespace RBTree

/-- Node colour: the source stores `int color` with Red = 1 and Black = 0. -/
inductive Color where
  | red
  | black
  deriving DecidableEq

/-- A subtree: the sentinel `nullNode` or a real node with colour, left child, value, right child. -/
inductive Node (α : Type) where
  | nullNode : Node α
  | node (color : Color) (left : Node α) (val : α) (right : Node α) : Node α
  deriving DecidableEq

/-- One parent link: the parent's colour and value, the side the child hangs on, and the
parent's other child. `left c v r` is a parent whose LEFT child is the focus. -/
inductive Frame (α : Type) where
  | left (color : Color) (val : α) (right : Node α) : Frame α
  | right (color : Color) (left : Node α) (val : α) : Frame α
  deriving DecidableEq

/-- The chain of parents of a node, nearest first. -/
abbrev Path (α : Type) := List (Frame α)

open Color Node

variable {α : Type}

/-- Reads `n->color`; the sentinel is black (set in the constructor, never changed). -/
def Node.color : Node α → Color
  | nullNode => black
  | node c _ _ _ => c

/-- Performs `n->color = 0`. On the sentinel this writes the colour it already has. -/
def Node.setBlack : Node α → Node α
  | nullNode => nullNode
  | node _ l v r => node black l v r

/-- Reads `p->color` of a parent frame. -/
def Frame.color : Frame α → Color
  | Frame.left c _ _ => c
  | Frame.right c _ _ => c

/-- Reads `p->val` of a parent frame. -/
def Frame.val : Frame α → α
  | Frame.left _ v _ => v
  | Frame.right _ _ v => v

/-- The parent node of a frame, with the child `t` hung back in its slot. -/
def Frame.plug : Frame α → Node α → Node α
  | Frame.left c v r, t => node c t v r
  | Frame.right c l v, t => node c l v t

/-- The whole tree seen from a focus: follows the parent links up to the root. -/
def fill : Path α → Node α → Node α
  | [], t => t
  | f :: rest, t => fill rest (f.plug t)

/-- Source `left_rotate(x)` on the subtree at `x`; the re-linking of `x->p` to `y` is the
unchanged path above. `y = x->right` must be a real node: for the sentinel `y->left` is
`nullptr`, which differs from `nullNode`, and `y->left->p = x` dereferences it. -/
def left_rotate : Node α → Option (Node α)
  | node c a v (node c' b w d) => some (node c' (node c a v b) w d)
  | _ => none

/-- Source `right_rotate(x)`, mirror image of `left_rotate`. -/
def right_rotate : Node α → Option (Node α)
  | node c (node c' a w b) v d => some (node c' a w (node c b v d))
  | _ => none

section Ordered

variable [LinearOrder α]

/-- Source `search(value)`: descent from the root comparing with `==` then `<`. -/
def search : Node α → α → Bool
  | nullNode, _ => false
  | node _ l x r, value =>
    if value = x then true
    else if value < x then search l value
    else search r value

/-- Source `searchNode(value)`: the first node met by the descent whose value matches, as a
pointer (subtree and parents); `none` is `nullptr`. -/
def searchNode (value : α) : Node α → Path α → Option (Node α × Path α)
  | nullNode, _ => none
  | node c l x r, path =>
    if value = x then some (node c l x r, path)
    else if value < x then searchNode value l (Frame.left c x r :: path)
    else searchNode value r (Frame.right c l x :: path)

/-- The descent loop of source `insert(Node*&)`: walks `x` down from the root with
`z->val < x->val` choosing left, else right, until `x` is the sentinel; the result is the
parent chain of the slot found (its head is `y`, and the side of the slot is the side the
last comparison `z->val < y->val` chose, which is the comparison the attachment repeats). -/
def insertDescend (value : α) : Node α → Path α → Path α
  | nullNode, path => path
  | node c l x r, path =>
    if value < x then insertDescend value l (Frame.left c x r :: path)
    else insertDescend value r (Frame.right c l x :: path)

end Ordered

/-- One pass of the `while (z->p->color == 1)` loop of source `insert_fixup`, iterated with
fuel. The state is the pointer `z`. The result is the pointer `z` on loop exit. -/
def insert_fixup_loop : Nat → Node α → Path α → Option (Node α × Path α)
  | 0, _, _ => none
  | fuel + 1, z, path =>
    match path with
    | [] => none -- z->p is nullptr, z->p->color dereferences it
    | pf :: up =>
      if pf.color = red then
        match up with
        | [] => none -- z->p->p is nullptr, z->p->p->left dereferences it
        | Frame.left _ gv y :: rest =>
          -- z->p == z->p->p->left, y = z->p->p->right
          if y.color = red then
            -- z->p->color = 0; y->color = 0; z->p->p->color = 1; z = z->p->p
            let p1 :=
              match pf with
              | Frame.left _ pv pr => node black z pv pr
              | Frame.right _ pl pv => node black pl pv z
            let z1 := node red p1 gv y.setBlack
            match rest with
            | [] => some (z1, []) -- z == root: break
            | _ :: _ => insert_fixup_loop fuel z1 rest
          else
            match pf with
            | Frame.right pc pl pv =>
              -- z == z->p->right: z = z->p; left_rotate(z)
              match left_rotate (node pc pl pv z) with
              | some (node _ z1 tv tr) =>
                -- z->p->color = 0; z->p->p->color = 1; right_rotate(z->p->p)
                match right_rotate (node red (node black z1 tv tr) gv y) with
                | some (node c1 z2 v1 r1) => insert_fixup_loop fuel z2 (Frame.left c1 v1 r1 :: rest)
                | _ => none
              | _ => none
            | Frame.left _ pv pr =>
              -- z->p->color = 0; z->p->p->color = 1; right_rotate(z->p->p)
              match right_rotate (node red (node black z pv pr) gv y) with
              | some (node c1 z2 v1 r1) => insert_fixup_loop fuel z2 (Frame.left c1 v1 r1 :: rest)
              | _ => none
        | Frame.right _ y gv :: rest =>
          -- z->p is the right child, y = z->p->p->left
          if y.color = red then
            let p1 :=
              match pf with
              | Frame.left _ pv pr => node black z pv pr
              | Frame.right _ pl pv => node black pl pv z
            let z1 := node red y.setBlack gv p1
            match rest with
            | [] => some (z1, [])
            | _ :: _ => insert_fixup_loop fuel z1 rest
          else
            match pf with
            | Frame.left pc pv pr =>
              -- z == z->p->left: z = z->p; right_rotate(z)
              match right_rotate (node pc z pv pr) with
              | some (node _ tl tv z1) =>
                -- z->p->color = 0; z->p->p->color = 1; left_rotate(z->p->p)
                match left_rotate (node red y gv (node black tl tv z1)) with
                | some (node c1 l1 v1 z2) => insert_fixup_loop fuel z2 (Frame.right c1 l1 v1 :: rest)
                | _ => none
              | _ => none
            | Frame.right _ pl pv =>
              match left_rotate (node red y gv (node black pl pv z)) with
              | some (node c1 l1 v1 z2) => insert_fixup_loop fuel z2 (Frame.right c1 l1 v1 :: rest)
              | _ => none
      else some (z, path)

/-- Source `insert_fixup(z)`: the loop, then `root->color = 0`. Returns the new root. Each
pass moves `z` at least one level up, so `path.length + 1` passes are enough. -/
def insert_fixup (z : Node α) (path : Path α) : Option (Node α) :=
  match insert_fixup_loop (path.length + 1) z path with
  | some (z1, path1) => some (fill path1 z1).setBlack
  | none => none

section Ordered

variable [LinearOrder α]

/-- Source `insert(T value)` with `insert(Node*&)`: allocate a red node with sentinel
children, descend, attach; a new root is coloured black; a child of the root is left as is;
otherwise `insert_fixup` runs. Returns the new root. -/
def insert (t : Node α) (value : α) : Option (Node α) :=
  let z := node red nullNode value nullNode
  match insertDescend value t [] with
  | [] => some (node black nullNode value nullNode) -- z->p == nullptr: root = z; z->color = 0
  | [pf] => some (pf.plug z) -- z->p->p == nullptr: return
  | pf :: gf :: rest => insert_fixup z (pf :: gf :: rest)

end Ordered

/-- Source `minimum(nodePtr)`: follows `left` links while `nodePtr->left != nullNode`.
Returns the node reached as a pointer; the sentinel is returned as it is. -/
def minimum : Node α → Path α → Node α × Path α
  | nullNode, path => (nullNode, path)
  | node c nullNode x r, path => (node c nullNode x r, path)
  | node c (node lc ll lx lr) x r, path => minimum (node lc ll lx lr) (Frame.left c x r :: path)

/-- Source `maximum(nodePtr)`: follows `right` links while `nodePtr->right != nullNode`. -/
def maximum : Node α → Path α → Node α × Path α
  | nullNode, path => (nullNode, path)
  | node c l x nullNode, path => (node c l x nullNode, path)
  | node c l x (node rc rl rx rr), path => maximum (node rc rl rx rr) (Frame.right c l x :: path)

/-- The part of one pass of the `rbDeleteFixup` loop after the `w->color == 1` test, for `x`
a left child: `pc`, `pv` are the colour and value of `x->p`, and `w = x->p->right`.
Returns the next `x`. -/
def deleteFixLeft (x : Node α) (pc : Color) (pv : α) (w : Node α) (rest : Path α) :
    Option (Node α × Path α) :=
  match w with
  | nullNode => none -- w->left is nullptr, w->left->color dereferences it
  | node wc wl wv wr =>
    if wl.color = black ∧ wr.color = black then
      -- w->color = 1; x = x->p
      some (node pc x pv (node red wl wv wr), rest)
    else
      -- if (w->right->color == 0): w->left->color = 0; w->color = 1; right_rotate(w); w = x->p->right
      let w1 := if wr.color = black then right_rotate (node red wl.setBlack wv wr)
                else some (node wc wl wv wr)
      match w1 with
      | some (node _ wl1 wv1 wr1) =>
        -- w->color = x->p->color; x->p->color = 0; w->right->color = 0; left_rotate(x->p); x = root
        match left_rotate (node black x pv (node pc wl1 wv1 wr1.setBlack)) with
        | some t => some (fill rest t, [])
        | none => none
      | _ => none

/-- Mirror image of `deleteFixLeft`, for `x` a right child and `w = x->p->left`. -/
def deleteFixRight (x : Node α) (pc : Color) (pv : α) (w : Node α) (rest : Path α) :
    Option (Node α × Path α) :=
  match w with
  | nullNode => none
  | node wc wl wv wr =>
    if wr.color = black ∧ wl.color = black then
      some (node pc (node red wl wv wr) pv x, rest)
    else
      let w1 := if wl.color = black then left_rotate (node red wl wv wr.setBlack)
                else some (node wc wl wv wr)
      match w1 with
      | some (node _ wl1 wv1 wr1) =>
        match right_rotate (node black (node pc wl1.setBlack wv1 wr1) pv x) with
        | some t => some (fill rest t, [])
        | none => none
      | _ => none

/-- The `while (x != root && x->color == 0)` loop of source `rbDeleteFixup`, with fuel.
The state is the pointer `x`, which may be the sentinel with its parent link. -/
def rbDeleteFixupLoop : Nat → Node α → Path α → Option (Node α × Path α)
  | 0, _, _ => none
  | fuel + 1, x, path =>
    match path with
    | [] => some (x, []) -- x == root
    | Frame.left pc pv w :: rest =>
      if x.color = red then some (x, path)
      else
        -- x == x->p->left, w = x->p->right
        let next :=
          match w with
          | node red wl wv wr =>
            -- w->color = 0; x->p->color = 1; left_rotate(x->p); w = x->p->right
            match left_rotate (node red x pv (node black wl wv wr)) with
            | some (node c1 (node c2 x1 v2 w2) v1 r1) =>
              deleteFixLeft x1 c2 v2 w2 (Frame.left c1 v1 r1 :: rest)
            | _ => none
          | _ => deleteFixLeft x pc pv w rest
        match next with
        | some (x1, path1) => rbDeleteFixupLoop fuel x1 path1
        | none => none
    | Frame.right pc w pv :: rest =>
      if x.color = red then some (x, path)
      else
        let next :=
          match x, w with
          | nullNode, nullNode =>
            -- the sentinel is its parent's left child as well, so x == x->p->left holds:
            -- w = x->p->right is the sentinel and w->left->color dereferences nullptr
            none
          | _, node red wl wv wr =>
            -- w->color = 0; x->p->color = 1; right_rotate(x->p); w = x->p->left
            match right_rotate (node red (node black wl wv wr) pv x) with
            | some (node c1 l1 v1 (node c2 w2 v2 x1)) =>
              deleteFixRight x1 c2 v2 w2 (Frame.right c1 l1 v1 :: rest)
            | _ => none
          | _, _ => deleteFixRight x pc pv w rest
        match next with
        | some (x1, path1) => rbDeleteFixupLoop fuel x1 path1
        | none => none

/-- Source `rbDeleteFixup(x)`: the loop, then `x->color = 0`. Returns the new root. A pass
either moves `x` up one level or ends with `x` red or the root, so `2 * path.length + 2`
passes are enough. -/
def rbDeleteFixup (x : Node α) (path : Path α) : Option (Node α) :=
  match rbDeleteFixupLoop (2 * path.length + 2) x path with
  | some (x1, path1) => some (fill path1 x1.setBlack)
  | none => none

/-- Source `rbTransplant(u, v)`: the slot that held `u` (`root`, `u->p->left` or
`u->p->right`) now holds `v`, and `v->p = u->p`, also when `v` is the sentinel. As a pointer
the result is `v` with the parents of `u`. -/
def rbTransplant (u : Node α × Path α) (v : Node α) : Node α × Path α :=
  (v, u.2)

/-- Source `rbDelete(z)` for `z` a pointer to a real node. Returns the new root.

With both children real, `y = minimum(z->right)` is unlinked (`x = y->right` takes its
place, and `x->p` is set even when `x` is the sentinel) and `y` takes the place, left child
and colour of `z`: in the tree this is the node of `z` carrying the value of `y`. The two
source branches `y->p == z` and its `else` differ only in the pointer writes needed and
give the same tree: `rel` is the chain of parents of `y` inside `z->right`, and the parents
of `x` are `rel` followed by the node that `y` has become and by the parents of `z`. -/
def rbDelete : Node α → Path α → Option (Node α)
  | nullNode, _ => none
  | node zc nullNode zv zr, path =>
    -- x = z->right; rbTransplant(z, z->right)
    let x := rbTransplant (node zc nullNode zv zr, path) zr
    if zc = black then rbDeleteFixup x.1 x.2 else some (fill x.2 x.1)
  | node zc (node lc ll lv lr) zv nullNode, path =>
    -- x = z->left; rbTransplant(z, z->left)
    let x := rbTransplant (node zc (node lc ll lv lr) zv nullNode, path) (node lc ll lv lr)
    if zc = black then rbDeleteFixup x.1 x.2 else some (fill x.2 x.1)
  | node zc (node lc ll lv lr) _ (node rc rl rv rr), path =>
    match minimum (node rc rl rv rr) [] with
    | (node yc yl yv yr, rel) =>
      -- x = y->right; rbTransplant(y, y->right) (or x->p = y); rbTransplant(z, y);
      -- y->left = z->left; y->color = z->color
      let x := rbTransplant (node yc yl yv yr, rel ++ Frame.right zc (node lc ll lv lr) yv :: path) yr
      if yc = black then rbDeleteFixup x.1 x.2 else some (fill x.2 x.1)
    | (nullNode, _) => none

section Ordered

variable [LinearOrder α]

/-- Source `del(value)`: `searchNode`, then `rbDelete` and `true`, or `false` with the tree
untouched. Returns the result flag and the new root. -/
def del (t : Node α) (value : α) : Option (Bool × Node α) :=
  match searchNode value t [] with
  | some (z, path) =>
    match rbDelete z path with
    | some t1 => some (true, t1)
    | none => none
  | none => some (false, t)

end Ordered

/-- The part of source `rbDelete(z)` before the test `y_orig_color == 0`: the colour
remembered in `y_orig_color` and the pointer `x` that `rbDeleteFixup` would receive. -/
def rbDeleteUnlink : Node α → Path α → Option (Color × Node α × Path α)
  | nullNode, _ => none
  | node zc nullNode zv zr, path =>
    some (zc, rbTransplant (node zc nullNode zv zr, path) zr)
  | node zc (node lc ll lv lr) zv nullNode, path =>
    some (zc, rbTransplant (node zc (node lc ll lv lr) zv nullNode, path) (node lc ll lv lr))
  | node zc (node lc ll lv lr) _ (node rc rl rv rr), path =>
    match minimum (node rc rl rv rr) [] with
    | (node yc yl yv yr, rel) =>
      some (yc, rbTransplant
        (node yc yl yv yr, rel ++ Frame.right zc (node lc ll lv lr) yv :: path) yr)
    | (nullNode, _) => none

/-- The body of one pass of the loop of source `rbDeleteFixup`, entered with `x` black and not
the root: the next `x`, or `none` for a null dereference. -/
def rbDeleteFixupPass (x : Node α) : Path α → Option (Node α × Path α)
  | [] => none -- x->p is nullptr
  | Frame.left pc pv w :: rest =>
    match w with
    | node red wl wv wr =>
      match left_rotate (node red x pv (node black wl wv wr)) with
      | some (node c1 (node c2 x1 v2 w2) v1 r1) =>
        deleteFixLeft x1 c2 v2 w2 (Frame.left c1 v1 r1 :: rest)
      | _ => none
    | _ => deleteFixLeft x pc pv w rest
  | Frame.right pc w pv :: rest =>
    match x, w with
    | nullNode, nullNode => none
    | _, node red wl wv wr =>
      match right_rotate (node red (node black wl wv wr) pv x) with
      | some (node c1 l1 v1 (node c2 w2 v2 x1)) =>
        deleteFixRight x1 c2 v2 w2 (Frame.right c1 l1 v1 :: rest)
      | _ => none
    | _, _ => deleteFixRight x pc pv w rest

/-- The upward walk of source `successorNode`: `y = n->p; while (y != nullptr &&
n == y->right) { n = y; y = y->p; }`, returning `y`; `none` is `nullptr`. -/
def successorClimb : Node α → Path α → Option (Node α × Path α)
  | _, [] => none
  | n, Frame.right c l v :: rest => successorClimb (node c l v n) rest
  | n, Frame.left c v r :: rest => some (node c n v r, rest)

/-- Source `successorNode(n)`. For the sentinel `n->right` is `nullptr`, which differs from
`nullNode`, and `minimum(nullptr)` returns `nullptr`. -/
def successorNode : Option (Node α × Path α) → Option (Node α × Path α)
  | none => none
  | some (nullNode, _) => none
  | some (node c l v nullNode, path) => successorClimb (node c l v nullNode) path
  | some (node c l v (node rc rl rv rr), path) =>
    some (minimum (node rc rl rv rr) (Frame.right c l v :: path))

/-- Source `suc(value)`: the value returned and what is written to `std::cout`, as pairs of
the text and the value printed after it. `default` is `T{}`, which is also the value stored
in the sentinel. -/
def suc [LinearOrder α] [Inhabited α] (t : Node α) (value : α) : α × List (String × α) :=
  match successorNode (searchNode value t []) with
  | some (node _ _ v _, _) => (v, [])
  | some (nullNode, _) => (default, [])
  | none => (default, [("suc called with invalid argument: ", value)])

/-- The upward walk of source `predecessorNode`: `y = n->p; while (y != nullptr &&
n == y->left) { n = y; y = y->p; }`, returning `y`; `none` is `nullptr`. -/
def predecessorClimb : Node α → Path α → Option (Node α × Path α)
  | _, [] => none
  | n, Frame.left c v r :: rest => predecessorClimb (node c n v r) rest
  | n, Frame.right c l v :: rest => some (node c l v n, rest)

/-- Source `predecessorNode(n)`. For the sentinel `n->left` is `nullptr`, which differs from
`nullNode`, and `maximum(nullptr)` returns `nullptr`. -/
def predecessorNode : Option (Node α × Path α) → Option (Node α × Path α)
  | none => none
  | some (nullNode, _) => none
  | some (node c nullNode v r, path) => predecessorClimb (node c nullNode v r) path
  | some (node c (node lc ll lv lr) v r, path) =>
    some (maximum (node lc ll lv lr) (Frame.left c v r :: path))

/-- Source `pred(value)`: the value returned and what is written to `std::cout`, as pairs of
the text and the value printed after it. -/
def pred [LinearOrder α] [Inhabited α] (t : Node α) (value : α) : α × List (String × α) :=
  match predecessorNode (searchNode value t []) with
  | some (node _ _ v _, _) => (v, [])
  | some (nullNode, _) => (default, [])
  | none => (default, [("pred called with invalid argument: ", value)])

/-- Source `min()`: the value of `minimum(root)`, or `T{}` when that is the sentinel. -/
def min [Inhabited α] (t : Node α) : α :=
  match (minimum t []).1 with
  | node _ _ v _ => v
  | nullNode => default

/-- Source `max()`: the value of `maximum(root)`, or `T{}` when that is the sentinel. -/
def max [Inhabited α] (t : Node α) : α :=
  match (maximum t []).1 with
  | node _ _ v _ => v
  | nullNode => default

/-! ## Traversal and validation -/

/-- The keys of a subtree from left to right: the in-order key sequence. -/
def inorder : Node α → List α
  | nullNode => []
  | node _ l v r => inorder l ++ v :: inorder r

/-- Reads `n->left` as a pointer: `nullptr` (`none`) for the sentinel. -/
def Node.leftPtr : Node α → Option (Node α)
  | nullNode => none
  | node _ l _ _ => some l

/-- Reads `n->right` as a pointer: `nullptr` (`none`) for the sentinel. -/
def Node.rightPtr : Node α → Option (Node α)
  | nullNode => none
  | node _ _ _ r => some r

/-- Number of real nodes of a subtree. -/
def Node.size : Node α → Nat
  | nullNode => 0
  | node _ l _ r => l.size + r.size + 1

/-- The inner loop of source `displayInOrder`: `while (nodePtr) { s.push(nodePtr);
nodePtr = nodePtr->left; }`. The sentinel is pushed too, its `left` is `nullptr`. -/
def pushLeft : Node α → List (Node α) → List (Node α)
  | nullNode, s => nullNode :: s
  | node c l v r, s => pushLeft l (node c l v r :: s)

/-- The outer loop of source `displayInOrder` with fuel; `out` collects the values that
`display` prints (`display` prints nothing for the sentinel). -/
def displayInOrderLoop : Nat → Option (Node α) → List (Node α) → List α → Option (List α)
  | 0, _, _, _ => none
  | fuel + 1, nodePtr, s, out =>
    match nodePtr, s with
    | none, [] => some out
    | _, _ =>
      let s1 := match nodePtr with
        | some n => pushLeft n s
        | none => s
      match s1 with
      | [] => none -- s.top() of an empty stack
      | top :: s2 =>
        let out1 := match top with
          | nullNode => out
          | node _ _ v _ => out ++ [v]
        displayInOrderLoop fuel top.rightPtr s2 out1

/-- Source `displayInOrder()`: the sequence of values printed. Every real node and every
sentinel edge costs one pass of the outer loop. -/
def displayInOrder (t : Node α) : Option (List α) :=
  displayInOrderLoop (2 * t.size + 2) (some t) [] []

/-- The loop of source `validRBTree` that walks `n = n->left` from the root until
`nullptr`, counting black nodes; the sentinel is on the walk and counts. -/
def leftBlackCount : Node α → Nat
  | nullNode => 1
  | node c l _ _ => (if c = black then 1 else 0) + leftBlackCount l

/-- Source `rbTest(n, cur_b, total_b)`: the diagnostics printed, in order. A real node has
non-null children, so the `nullptr` child test holds exactly at the sentinel, which is black. -/
def rbTest : Node α → Nat → Nat → List String
  | nullNode, cur_b, total_b =>
    if cur_b + 1 ≠ total_b then ["INVALID TREE: different number of black nodes on path"] else []
  | node c l _ r, cur_b, total_b =>
    let cur := if c = black then cur_b + 1 else cur_b
    (if c = red ∧ (l.color = red ∨ r.color = red) then ["INVALID TREE: red node with red child"]
      else [])
    ++ rbTest l cur total_b ++ rbTest r cur total_b

/-- Source `validRBTree()`: the diagnostics printed; the empty list is a valid tree. -/
def validRBTree (t : Node α) : List String :=
  if t.color ≠ black then
    ["INVALID TREE: root is not black (violates rule 1 of rb trees). will not check rest of tree"]
  else rbTest t 0 (leftBlackCount t)

/-- Reads `n->color` as the `int` it is, for a sentinel that stores the colour `sc`:
Red = 1, Black = 0. -/
def colorAt (sc : Int) : Node α → Int
  | nullNode => sc
  | node red _ _ _ => 1
  | node black _ _ _ => 0

/-- The black-counting loop of source `validRBTree` for a sentinel that stores the colour
`sc`: the sentinel ends the walk and counts only when it is black. -/
def leftBlackCountAt (sc : Int) : Node α → Nat
  | nullNode => if sc = 0 then 1 else 0
  | node c l _ _ => (if c = black then 1 else 0) + leftBlackCountAt sc l

/-- Source `rbTest(n, cur_b, total_b)` with the colour stored in the sentinel left open, real
nodes being red or black with non-null children. At the sentinel: colour 0 counts as black;
colour 1 reaches `n->left->color` with `n->left == nullptr`, a null dereference (`none`);
any other colour prints the wrong-colour line, the count line if the counts differ, and
"nullNode is not black!". -/
def rbTestAt (sc : Int) : Node α → Nat → Nat → Option (List String)
  | nullNode, cur_b, total_b =>
    if sc = 0 then
      some (if cur_b + 1 ≠ total_b then
        ["INVALID TREE: different number of black nodes on path"] else [])
    else if sc ≠ 1 then
      some (["INVALID TREE: node with color other than red or black"]
        ++ (if cur_b ≠ total_b then ["INVALID TREE: different number of black nodes on path"]
            else [])
        ++ ["INVALID TREE: nullNode is not black!"])
    else none
  | node c l _ r, cur_b, total_b =>
    let cur := if c = black then cur_b + 1 else cur_b
    let here := if c = red ∧ (colorAt sc l = 1 ∨ colorAt sc r = 1) then
      ["INVALID TREE: red node with red child"] else []
    match rbTestAt sc l cur total_b, rbTestAt sc r cur total_b with
    | some a, some b => some (here ++ a ++ b)
    | _, _ => none

/-- Source `validRBTree()` with the colour stored in the sentinel left open. -/
def validRBTreeAt (sc : Int) (t : Node α) : Option (List String) :=
  if colorAt sc t ≠ 0 then
    some ["INVALID TREE: root is not black (violates rule 1 of rb trees). will not check rest of tree"]
  else rbTestAt sc t 0 (leftBlackCountAt sc t)

/-- Number of real nodes on the longest path from the root of the subtree down to a
sentinel. -/
def height : Node α → Nat
  | nullNode => 0
  | node _ l _ r => Max.max (height l) (height r) + 1

/-- Number of nodes that the loop of source `search(value)` visits: one per pass of
`while (n != nullNode)`, the pass that returns true included. -/
def searchVisits [LinearOrder α] : Node α → α → Nat
  | nullNode, _ => 0
  | node _ l x r, value =>
    if value = x then 1
    else if value < x then searchVisits l value + 1
    else searchVisits r value + 1

/-! ## The invariants of the specification -/

/-- Invariant 4: a red node never has a red child. -/
def noRedRed : Node α → Prop
  | nullNode => True
  | node c l _ r => (c = red → l.color = black ∧ r.color = black) ∧ noRedRed l ∧ noRedRed r

instance noRedRed.instDecidable : (t : Node α) → Decidable (noRedRed t)
  | nullNode => isTrue trivial
  | node c l _ r =>
    have := noRedRed.instDecidable l
    have := noRedRed.instDecidable r
    inferInstanceAs (Decidable ((c = red → l.color = black ∧ r.color = black) ∧ noRedRed l ∧ noRedRed r))

/-- The number of black real nodes on each path from the root of the subtree down to a
sentinel, one entry per path, left to right. -/
def blackCounts : Node α → List Nat
  | nullNode => [0]
  | node c l _ r => (blackCounts l ++ blackCounts r).map (fun n => n + if c = black then 1 else 0)

/-- Invariant 5: every root-to-sentinel path has the same number of black nodes. -/
def equalBlackCounts (t : Node α) : Prop :=
  ∀ a ∈ blackCounts t, ∀ b ∈ blackCounts t, a = b

instance equalBlackCounts.instDecidable (t : Node α) : Decidable (equalBlackCounts t) :=
  inferInstanceAs (Decidable (∀ a ∈ blackCounts t, ∀ b ∈ blackCounts t, a = b))

/-- Invariants 2 to 5: black root, black sentinel, no red node with a red child, equal
black counts on all root-to-sentinel paths. -/
def RBInvariants (t : Node α) : Prop :=
  t.color = black ∧ (nullNode : Node α).color = black ∧ noRedRed t ∧ equalBlackCounts t

instance RBInvariants.instDecidable (t : Node α) : Decidable (RBInvariants t) :=
  inferInstanceAs (Decidable (_ ∧ _ ∧ _ ∧ _))

/-- Invariant 6 as the specification words it: at every node the keys of the left subtree
are strictly less than its key and the keys of the right subtree are greater or equal. -/
def bstStrict [LinearOrder α] : Node α → Prop
  | nullNode => True
  | node _ l v r =>
    (∀ a ∈ inorder l, a < v) ∧ (∀ b ∈ inorder r, v ≤ b) ∧ bstStrict l ∧ bstStrict r

/-- The ordering the rotations keep: at every node the keys of the left subtree are less
than or equal to its key and the keys of the right subtree are greater or equal. -/
def bstWeak [LinearOrder α] : Node α → Prop
  | nullNode => True
  | node _ l v r =>
    (∀ a ∈ inorder l, a ≤ v) ∧ (∀ b ∈ inorder r, v ≤ b) ∧ bstWeak l ∧ bstWeak r

instance bstStrict.instDecidable [LinearOrder α] : (t : Node α) → Decidable (bstStrict t)
  | nullNode => isTrue trivial
  | node _ l v r =>
    have := bstStrict.instDecidable l
    have := bstStrict.instDecidable r
    inferInstanceAs (Decidable ((∀ a ∈ inorder l, a < v) ∧ (∀ b ∈ inorder r, v ≤ b) ∧
      bstStrict l ∧ bstStrict r))

instance bstWeak.instDecidable [LinearOrder α] : (t : Node α) → Decidable (bstWeak t)
  | nullNode => isTrue trivial
  | node _ l v r =>
    have := bstWeak.instDecidable l
    have := bstWeak.instDecidable r
    inferInstanceAs (Decidable ((∀ a ∈ inorder l, a ≤ v) ∧ (∀ b ∈ inorder r, v ≤ b) ∧
      bstWeak l ∧ bstWeak r))

/-! ## Sequences of public operations -/

/-- A public mutation: `insert(value)` or `del(value)`. -/
inductive Op (α : Type) where
  | insert (value : α) : Op α
  | del (value : α) : Op α
  deriving DecidableEq

section Ordered

variable [LinearOrder α]

/-- Applies one operation to a tree; the result flag of `del` is dropped. -/
def applyOp (t : Node α) : Op α → Option (Node α)
  | Op.insert v => insert t v
  | Op.del v =>
    match del t v with
    | some (_, t1) => some t1
    | none => none

/-- Applies a sequence of operations, first to last. -/
def run : List (Op α) → Node α → Option (Node α)
  | [], t => some t
  | op :: ops, t =>
    match applyOp t op with
    | some t1 => run ops t1
    | none => none

/-- A tree built from the empty tree by a finite sequence of `insert` and `del`. -/
def Reachable (t : Node α) : Prop := ∃ ops : List (Op α), run ops nullNode = some t

end Ordered

/-- The words of claim C9 for "already deleted": some `del(k)` of the sequence returned true
and no `insert(k)` follows it. -/
def AlreadyDeleted [LinearOrder α] (ops : List (Op α)) (k : α) : Prop :=
  ∃ pre post t0 t1, ops = pre ++ Op.del k :: post ∧ run pre nullNode = some t0 ∧
    del t0 k = some (true, t1) ∧ Op.insert k ∉ post

/-- Number of `insert(k)` in a sequence of operations. -/
def insertCount [LinearOrder α] (k : α) : List (Op α) → Nat
  | [] => 0
  | Op.insert v :: ops => (if v = k then 1 else 0) + insertCount k ops
  | Op.del _ :: ops => insertCount k ops

/-- Number of `del(k)` that return true when the sequence runs from the tree `t`. -/
def delTrueCount [LinearOrder α] (k : α) : List (Op α) → Node α → Nat
  | [], _ => 0
  | Op.insert v :: ops, t =>
    match insert t v with
    | some t1 => delTrueCount k ops t1
    | none => 0
  | Op.del v :: ops, t =>
    match del t v with
    | some (b, t1) => (if v = k ∧ b = true then 1 else 0) + delTrueCount k ops t1
    | none => 0

/-! ## Balance invariants used in the proofs -/

/-- No red node has a red child and every path down to a sentinel has `n` black real nodes. -/
def Bal : Node α → Nat → Prop
  | nullNode, n => n = 0
  | node red l _ r, n => l.color = black ∧ r.color = black ∧ Bal l n ∧ Bal r n
  | node black l _ r, n => ∃ m, n = m + 1 ∧ Bal l m ∧ Bal r m

/-- The path is non-empty and its nearest frame is black. -/
def headBlack : Path α → Prop
  | [] => False
  | f :: _ => f.color = black

/-- Balance of a chain of parents around a hole of black height `n`: every sibling subtree
is balanced with the height its place needs, the sibling and the parent of a red frame are
black, and the root frame is black. -/
def PathBal : Path α → Nat → Prop
  | [], _ => True
  | Frame.left red _ r :: rest, n => r.color = black ∧ Bal r n ∧ headBlack rest ∧ PathBal rest n
  | Frame.right red l _ :: rest, n => l.color = black ∧ Bal l n ∧ headBlack rest ∧ PathBal rest n
  | Frame.left black _ r :: rest, n => Bal r n ∧ PathBal rest (n + 1)
  | Frame.right black l _ :: rest, n => Bal l n ∧ PathBal rest (n + 1)

/-- The keys left of the hole of a path, in order. -/
def pathBefore : Path α → List α
  | [] => []
  | Frame.left _ _ _ :: rest => pathBefore rest
  | Frame.right _ l v :: rest => pathBefore rest ++ (inorder l ++ [v])

/-- The keys right of the hole of a path, in order. -/
def pathAfter : Path α → List α
  | [] => []
  | Frame.left _ v r :: rest => (v :: inorder r) ++ pathAfter rest
  | Frame.right _ _ _ :: rest => pathAfter rest

/-- State of the `rbDeleteFixup` loop: the parents are balanced around a hole of black height
`n + 1`, and `x` is either black of height `n` (one black short) or red and of height
`n + 1` once blackened. -/
def DelInv (x : Node α) (path : Path α) (n : Nat) : Prop :=
  PathBal path (n + 1) ∧ (x.color = black → Bal x n) ∧ (x.color = red → Bal x.setBlack (n + 1))

/-- In a pass of the `rbDeleteFixup` loop with parents `path`: `x->p` is a real node (the path
is not empty) and every sibling `w` whose colour and children the pass reads is a real node,
that is `w = x->p->right` (or `left`), and when that one is red also the refreshed `w`, its
former near child. -/
def SiblingsReal : Path α → Prop
  | [] => False
  | Frame.left _ _ w :: _ =>
    match w with
    | nullNode => False
    | node red wl _ _ => wl ≠ nullNode
    | node black _ _ _ => True
  | Frame.right _ w _ :: _ =>
    match w with
    | nullNode => False
    | node red _ _ wr => wr ≠ nullNode
    | node black _ _ _ => True

/-- The loop of `rbDeleteFixup` started at the pointer `x` ends after finitely many passes,
and each pass has a real parent and real siblings and dereferences no null pointer. -/
inductive FixupSafe : Node α → Path α → Prop where
  | root (x : Node α) : FixupSafe x []
  | red (x : Node α) (path : Path α) : x.color = red → FixupSafe x path
  | pass (x : Node α) (path : Path α) (x1 : Node α) (path1 : Path α) :
      x.color = black → SiblingsReal path → rbDeleteFixupPass x path = some (x1, path1) →
      FixupSafe x1 path1 → FixupSafe x path

/-! ## Theorems -/

@[simp] theorem color_nullNode : (nullNode : Node α).color = black := rfl
@[simp] theorem color_node (c : Color) (l : Node α) (v : α) (r : Node α) :
    (node c l v r).color = c := rfl
@[simp] theorem setBlack_nullNode : (nullNode : Node α).setBlack = nullNode := rfl
@[simp] theorem setBlack_node (c : Color) (l : Node α) (v : α) (r : Node α) :
    (node c l v r).setBlack = node black l v r := rfl
@[simp] theorem color_setBlack (t : Node α) : t.setBlack.color = black := by
  cases t <;> rfl

theorem Color.ne_red_iff (c : Color) : c ≠ red ↔ c = black := by
  cases c <;> simp

theorem Color.ne_black_iff (c : Color) : c ≠ black ↔ c = red := by
  cases c <;> simp

theorem inorder_fill (path : Path α) (t : Node α) :
    inorder (fill path t) = pathBefore path ++ inorder t ++ pathAfter path := by
  induction path generalizing t with
  | nil => simp [fill, pathBefore, pathAfter]
  | cons f rest ih =>
    cases f <;> simp [fill, Frame.plug, ih, pathBefore, pathAfter, inorder]

theorem Bal.setBlack {t : Node α} {n : Nat} (h : Bal t n) : ∃ m, Bal t.setBlack m := by
  cases t with
  | nullNode => exact ⟨n, h⟩
  | node c l v r =>
    cases c with
    | red => exact ⟨n + 1, n, rfl, h.2.2.1, h.2.2.2⟩
    | black => exact ⟨n, h⟩

theorem Bal.fill : ∀ (path : Path α) (t : Node α) (n : Nat), Bal t n → PathBal path n →
    (headBlack path ∨ path = [] ∨ t.color = black) →
    ∃ N, Bal (fill path t) N ∧ (path ≠ [] → (fill path t).color = black)
  | [], t, n, ht, _, _ => ⟨n, ht, fun h => absurd rfl h⟩
  | Frame.left red v r :: rest, t, n, ht, hp, hc => by
    have hb : t.color = black := by simpa [headBlack, Frame.color] using hc
    obtain ⟨hr, hbr, hh, hrest⟩ := hp
    obtain ⟨N, h1, h2⟩ := Bal.fill rest (node red t v r) n ⟨hb, hr, ht, hbr⟩ hrest (Or.inl hh)
    refine ⟨N, h1, fun _ => h2 ?_⟩
    rintro rfl; exact hh
  | Frame.right red l v :: rest, t, n, ht, hp, hc => by
    have hb : t.color = black := by simpa [headBlack, Frame.color] using hc
    obtain ⟨hl, hbl, hh, hrest⟩ := hp
    obtain ⟨N, h1, h2⟩ := Bal.fill rest (node red l v t) n ⟨hl, hb, hbl, ht⟩ hrest (Or.inl hh)
    refine ⟨N, h1, fun _ => h2 ?_⟩
    rintro rfl; exact hh
  | Frame.left black v r :: rest, t, n, ht, hp, _ => by
    obtain ⟨hbr, hrest⟩ := hp
    obtain ⟨N, h1, h2⟩ := Bal.fill rest (node black t v r) (n + 1) ⟨n, rfl, ht, hbr⟩ hrest
      (Or.inr (Or.inr rfl))
    refine ⟨N, h1, fun _ => ?_⟩
    cases rest with
    | nil => rfl
    | cons g rest => exact h2 (by simp)
  | Frame.right black l v :: rest, t, n, ht, hp, _ => by
    obtain ⟨hbl, hrest⟩ := hp
    obtain ⟨N, h1, h2⟩ := Bal.fill rest (node black l v t) (n + 1) ⟨n, rfl, hbl, ht⟩ hrest
      (Or.inr (Or.inr rfl))
    refine ⟨N, h1, fun _ => ?_⟩
    cases rest with
    | nil => rfl
    | cons g rest => exact h2 (by simp)

theorem insert_fixup_loop_bal : ∀ (fuel : Nat) (z : Node α) (path : Path α) (n : Nat),
    path.length < fuel → z.color = red → Bal z n → PathBal path n → path ≠ [] →
    ∃ z1 path1 n1, insert_fixup_loop fuel z path = some (z1, path1) ∧ Bal z1 n1 ∧
      PathBal path1 n1 ∧ (path1 = [] ∨ headBlack path1) := by
  intro fuel
  induction fuel with
  | zero => intro z path n h; simp at h
  | succ fuel ih =>
    intro z path n hlen hz hbz hp hne
    match path, hlen, hp with
    | [], _, _ => exact absurd rfl hne
    | Frame.left black pv ps :: up, _, hp =>
      exact ⟨z, _, n, by simp [insert_fixup_loop, Frame.color], hbz, hp, Or.inr rfl⟩
    | Frame.right black ps pv :: up, _, hp =>
      exact ⟨z, _, n, by simp [insert_fixup_loop, Frame.color], hbz, hp, Or.inr rfl⟩
    | [Frame.left red pv ps], _, hp => exact absurd hp.2.2.1 (by simp [headBlack])
    | [Frame.right red ps pv], _, hp => exact absurd hp.2.2.1 (by simp [headBlack])
    | Frame.left red pv ps :: Frame.left red gv y :: rest, _, hp =>
      exact absurd hp.2.2.1 (by simp [headBlack, Frame.color])
    | Frame.left red pv ps :: Frame.right red y gv :: rest, _, hp =>
      exact absurd hp.2.2.1 (by simp [headBlack, Frame.color])
    | Frame.right red ps pv :: Frame.left red gv y :: rest, _, hp =>
      exact absurd hp.2.2.1 (by simp [headBlack, Frame.color])
    | Frame.right red ps pv :: Frame.right red y gv :: rest, _, hp =>
      exact absurd hp.2.2.1 (by simp [headBlack, Frame.color])
    | Frame.left red pv ps :: Frame.left black gv y :: rest, hlen, hp =>
      obtain ⟨hcs, hbs, -, hby, hrest⟩ := hp
      by_cases hy : y.color = red
      · cases y with
        | nullNode => simp at hy
        | node yc ya yv yb =>
        simp only [color_node] at hy; subst hy
        obtain ⟨hya, hyb, hbya, hbyb⟩ := hby
        have hz1 : Bal (node red (node black z pv ps) gv (node black ya yv yb)) (n + 1) :=
          ⟨rfl, rfl, ⟨n, rfl, hbz, hbs⟩, ⟨n, rfl, hbya, hbyb⟩⟩
        cases rest with
        | nil =>
          exact ⟨_, [], n + 1, by simp [insert_fixup_loop, Frame.color], hz1, trivial, Or.inl rfl⟩
        | cons f rest =>
          have e : insert_fixup_loop (fuel + 1) z (Frame.left red pv ps :: Frame.left black gv (node red ya yv yb) :: f :: rest)
              = insert_fixup_loop fuel (node red (node black z pv ps) gv (node black ya yv yb)) (f :: rest) := by
            simp [insert_fixup_loop, Frame.color]
          rw [e]
          exact ih _ _ (n + 1) (by simp at hlen ⊢; omega) rfl hz1 hrest (by simp)
      · have hy : y.color = black := (Color.ne_red_iff _).1 hy
        have e : insert_fixup_loop (fuel + 1) z (Frame.left red pv ps :: Frame.left black gv y :: rest)
            = insert_fixup_loop fuel (z) (Frame.left black pv (node red ps gv y) :: rest) := by
          simp [insert_fixup_loop, Frame.color, hy, left_rotate, right_rotate]
        rw [e]
        exact ih _ _ n (by simp at hlen ⊢; omega) hz hbz ⟨⟨hcs, hy, hbs, hby⟩, hrest⟩ (by simp)
    | Frame.left red pv ps :: Frame.right black y gv :: rest, hlen, hp =>
      obtain ⟨hcs, hbs, -, hby, hrest⟩ := hp
      by_cases hy : y.color = red
      · cases y with
        | nullNode => simp at hy
        | node yc ya yv yb =>
        simp only [color_node] at hy; subst hy
        obtain ⟨hya, hyb, hbya, hbyb⟩ := hby
        have hz1 : Bal (node red (node black ya yv yb) gv (node black z pv ps)) (n + 1) :=
          ⟨rfl, rfl, ⟨n, rfl, hbya, hbyb⟩, ⟨n, rfl, hbz, hbs⟩⟩
        cases rest with
        | nil =>
          exact ⟨_, [], n + 1, by simp [insert_fixup_loop, Frame.color], hz1, trivial, Or.inl rfl⟩
        | cons f rest =>
          have e : insert_fixup_loop (fuel + 1) z (Frame.left red pv ps :: Frame.right black (node red ya yv yb) gv :: f :: rest)
              = insert_fixup_loop fuel (node red (node black ya yv yb) gv (node black z pv ps)) (f :: rest) := by
            simp [insert_fixup_loop, Frame.color]
          rw [e]
          exact ih _ _ (n + 1) (by simp at hlen ⊢; omega) rfl hz1 hrest (by simp)
      · have hy : y.color = black := (Color.ne_red_iff _).1 hy
        cases z with
        | nullNode => simp at hz
        | node zc za zv zb =>
        simp only [color_node] at hz; subst hz
        obtain ⟨hza, hzb, hba, hbb⟩ := hbz
        have e : insert_fixup_loop (fuel + 1) (node red za zv zb) (Frame.left red pv ps :: Frame.right black y gv :: rest)
            = insert_fixup_loop fuel (node red zb pv ps) (Frame.right black (node red y gv za) zv :: rest) := by
          simp [insert_fixup_loop, Frame.color, hy, left_rotate, right_rotate]
        rw [e]
        exact ih _ _ n (by simp at hlen ⊢; omega) rfl ⟨hzb, hcs, hbb, hbs⟩ ⟨⟨hy, hza, hby, hba⟩, hrest⟩ (by simp)
    | Frame.right red ps pv :: Frame.left black gv y :: rest, hlen, hp =>
      obtain ⟨hcs, hbs, -, hby, hrest⟩ := hp
      by_cases hy : y.color = red
      · cases y with
        | nullNode => simp at hy
        | node yc ya yv yb =>
        simp only [color_node] at hy; subst hy
        obtain ⟨hya, hyb, hbya, hbyb⟩ := hby
        have hz1 : Bal (node red (node black ps pv z) gv (node black ya yv yb)) (n + 1) :=
          ⟨rfl, rfl, ⟨n, rfl, hbs, hbz⟩, ⟨n, rfl, hbya, hbyb⟩⟩
        cases rest with
        | nil =>
          exact ⟨_, [], n + 1, by simp [insert_fixup_loop, Frame.color], hz1, trivial, Or.inl rfl⟩
        | cons f rest =>
          have e : insert_fixup_loop (fuel + 1) z (Frame.right red ps pv :: Frame.left black gv (node red ya yv yb) :: f :: rest)
              = insert_fixup_loop fuel (node red (node black ps pv z) gv (node black ya yv yb)) (f :: rest) := by
            simp [insert_fixup_loop, Frame.color]
          rw [e]
          exact ih _ _ (n + 1) (by simp at hlen ⊢; omega) rfl hz1 hrest (by simp)
      · have hy : y.color = black := (Color.ne_red_iff _).1 hy
        cases z with
        | nullNode => simp at hz
        | node zc za zv zb =>
        simp only [color_node] at hz; subst hz
        obtain ⟨hza, hzb, hba, hbb⟩ := hbz
        have e : insert_fixup_loop (fuel + 1) (node red za zv zb) (Frame.right red ps pv :: Frame.left black gv y :: rest)
            = insert_fixup_loop fuel (node red ps pv za) (Frame.left black zv (node red zb gv y) :: rest) := by
          simp [insert_fixup_loop, Frame.color, hy, left_rotate, right_rotate]
        rw [e]
        exact ih _ _ n (by simp at hlen ⊢; omega) rfl ⟨hcs, hza, hbs, hba⟩ ⟨⟨hzb, hy, hbb, hby⟩, hrest⟩ (by simp)
    | Frame.right red ps pv :: Frame.right black y gv :: rest, hlen, hp =>
      obtain ⟨hcs, hbs, -, hby, hrest⟩ := hp
      by_cases hy : y.color = red
      · cases y with
        | nullNode => simp at hy
        | node yc ya yv yb =>
        simp only [color_node] at hy; subst hy
        obtain ⟨hya, hyb, hbya, hbyb⟩ := hby
        have hz1 : Bal (node red (node black ya yv yb) gv (node black ps pv z)) (n + 1) :=
          ⟨rfl, rfl, ⟨n, rfl, hbya, hbyb⟩, ⟨n, rfl, hbs, hbz⟩⟩
        cases rest with
        | nil =>
          exact ⟨_, [], n + 1, by simp [insert_fixup_loop, Frame.color], hz1, trivial, Or.inl rfl⟩
        | cons f rest =>
          have e : insert_fixup_loop (fuel + 1) z (Frame.right red ps pv :: Frame.right black (node red ya yv yb) gv :: f :: rest)
              = insert_fixup_loop fuel (node red (node black ya yv yb) gv (node black ps pv z)) (f :: rest) := by
            simp [insert_fixup_loop, Frame.color]
          rw [e]
          exact ih _ _ (n + 1) (by simp at hlen ⊢; omega) rfl hz1 hrest (by simp)
      · have hy : y.color = black := (Color.ne_red_iff _).1 hy
        have e : insert_fixup_loop (fuel + 1) z (Frame.right red ps pv :: Frame.right black y gv :: rest)
            = insert_fixup_loop fuel (z) (Frame.right black (node red y gv ps) pv :: rest) := by
          simp [insert_fixup_loop, Frame.color, hy, left_rotate, right_rotate]
        rw [e]
        exact ih _ _ n (by simp at hlen ⊢; omega) hz hbz ⟨⟨hy, hcs, hby, hbs⟩, hrest⟩ (by simp)

theorem insert_fixup_bal (z : Node α) (path : Path α) (n : Nat) (hz : z.color = red)
    (hbz : Bal z n) (hp : PathBal path n) (hne : path ≠ []) :
    ∃ t m, insert_fixup z path = some t ∧ Bal t m ∧ t.color = black := by
  obtain ⟨z1, path1, n1, e, hb1, hp1, h⟩ :=
    insert_fixup_loop_bal (path.length + 1) z path n (Nat.lt_succ_self _) hz hbz hp hne
  have hh : headBlack path1 ∨ path1 = [] ∨ z1.color = black := by
    rcases h with h | h
    · exact Or.inr (Or.inl h)
    · exact Or.inl h
  obtain ⟨N, hN, -⟩ := Bal.fill path1 z1 n1 hb1 hp1 hh
  obtain ⟨m, hm⟩ := hN.setBlack
  exact ⟨_, m, by simp [insert_fixup, e], hm, color_setBlack _⟩

section Ordered
variable [LinearOrder α]

theorem insertDescend_pathBal (v : α) : ∀ (t : Node α) (path : Path α) (n : Nat),
    Bal t n → PathBal path n → (t.color = red → headBlack path) →
    PathBal (insertDescend v t path) 0
  | nullNode, path, n, hb, hp, _ => by
    have : n = 0 := hb
    subst this
    exact hp
  | node red l x r, path, n, hb, hp, hc => by
    obtain ⟨hl, hr, hbl, hbr⟩ := hb
    have hh := hc rfl
    unfold insertDescend
    split
    · exact insertDescend_pathBal v l _ n hbl ⟨hr, hbr, hh, hp⟩ (by simp [hl])
    · exact insertDescend_pathBal v r _ n hbr ⟨hl, hbl, hh, hp⟩ (by simp [hr])
  | node black l x r, path, n, hb, hp, _ => by
    obtain ⟨m, rfl, hbl, hbr⟩ := hb
    unfold insertDescend
    split
    · exact insertDescend_pathBal v l _ m hbl ⟨hbr, hp⟩ (fun _ => rfl)
    · exact insertDescend_pathBal v r _ m hbr ⟨hbl, hp⟩ (fun _ => rfl)

theorem insert_bal (t : Node α) (v : α) (n : Nat) (hb : Bal t n) (hc : t.color = black) :
    ∃ t1 m, insert t v = some t1 ∧ Bal t1 m ∧ t1.color = black := by
  have hp : PathBal (insertDescend v t []) 0 :=
    insertDescend_pathBal v t [] n hb trivial (by simp [hc])
  have hz : Bal (node red nullNode v nullNode) 0 := ⟨rfl, rfl, rfl, rfl⟩
  unfold insert
  match h : insertDescend v t [], hp with
  | [], _ => exact ⟨_, 1, rfl, ⟨0, rfl, rfl, rfl⟩, rfl⟩
  | [Frame.left black pv ps], hp => exact ⟨_, 1, rfl, ⟨0, rfl, hz, hp.1⟩, rfl⟩
  | [Frame.right black ps pv], hp => exact ⟨_, 1, rfl, ⟨0, rfl, hp.1, hz⟩, rfl⟩
  | [Frame.left red pv ps], hp => exact absurd hp.2.2.1 (by simp [headBlack])
  | [Frame.right red ps pv], hp => exact absurd hp.2.2.1 (by simp [headBlack])
  | pf :: gf :: rest, hp =>
    exact insert_fixup_bal _ _ 0 rfl hz hp (by simp)

end Ordered

/-! ### The invariants of the specification and the validator -/

theorem blackCounts_ne_nil : ∀ (t : Node α), blackCounts t ≠ []
  | nullNode => by simp [blackCounts]
  | node c l v r => by
    have := blackCounts_ne_nil l
    simp [blackCounts, this]

theorem forall_mem_blackCounts_node (c : Color) (l : Node α) (v : α) (r : Node α)
    (P : Nat → Prop) :
    (∀ a ∈ blackCounts (node c l v r), P a) ↔
      (∀ a ∈ blackCounts l, P (a + if c = black then 1 else 0)) ∧
      (∀ a ∈ blackCounts r, P (a + if c = black then 1 else 0)) := by
  simp only [blackCounts, List.mem_map, List.mem_append]
  constructor
  · intro h
    exact ⟨fun a ha => h _ ⟨a, Or.inl ha, rfl⟩, fun a ha => h _ ⟨a, Or.inr ha, rfl⟩⟩
  · rintro ⟨h1, h2⟩ a ⟨b, hb | hb, rfl⟩
    · exact h1 b hb
    · exact h2 b hb

theorem bal_iff_counts : ∀ (t : Node α) (n : Nat),
    Bal t n ↔ noRedRed t ∧ ∀ a ∈ blackCounts t, a = n
  | nullNode, n => by simp [Bal, noRedRed, blackCounts, eq_comm]
  | node red l v r, n => by
    rw [forall_mem_blackCounts_node]
    simp only [Bal, noRedRed, bal_iff_counts l n, bal_iff_counts r n]
    simp
    tauto
  | node black l v r, n => by
    rw [forall_mem_blackCounts_node]
    simp only [Bal, noRedRed, bal_iff_counts l, bal_iff_counts r]
    simp
    constructor
    · rintro ⟨m, rfl, ⟨h3, h4⟩, h5, h6⟩
      exact ⟨⟨h3, h5⟩, fun a ha => by rw [h4 a ha], fun a ha => by rw [h6 a ha]⟩
    · rintro ⟨⟨h3, h5⟩, h, h1⟩
      obtain ⟨a, ha⟩ := List.exists_mem_of_ne_nil _ (blackCounts_ne_nil l)
      have hn := h a ha
      refine ⟨a, hn.symm, ⟨h3, fun b hb => ?_⟩, h5, fun b hb => ?_⟩
      · have := h b hb; omega
      · have := h1 b hb; omega

theorem rbInvariants_iff (t : Node α) : RBInvariants t ↔ t.color = black ∧ ∃ n, Bal t n := by
  simp only [RBInvariants, color_nullNode, true_and, bal_iff_counts, equalBlackCounts]
  constructor
  · rintro ⟨h1, h2, h3⟩
    obtain ⟨a, ha⟩ := List.exists_mem_of_ne_nil _ (blackCounts_ne_nil t)
    exact ⟨h1, a, h2, fun b hb => h3 b hb a ha⟩
  · rintro ⟨h1, n, h2, h3⟩
    exact ⟨h1, h2, fun a ha b hb => (h3 a ha).trans (h3 b hb).symm⟩

theorem rbTest_eq_nil : ∀ (t : Node α) (cur total : Nat),
    rbTest t cur total = [] ↔ noRedRed t ∧ ∀ a ∈ blackCounts t, cur + a + 1 = total
  | nullNode, cur, total => by simp [rbTest, noRedRed, blackCounts]
  | node c l v r, cur, total => by
    rw [forall_mem_blackCounts_node]
    simp only [rbTest, List.append_eq_nil, rbTest_eq_nil l, rbTest_eq_nil r, noRedRed]
    cases c
    · simp [Color.ne_red_iff]
      tauto
    · simp [Nat.add_assoc, Nat.add_comm 1]
      tauto

theorem leftBlackCount_mem : ∀ (t : Node α), ∃ a ∈ blackCounts t, leftBlackCount t = a + 1
  | nullNode => ⟨0, by simp [blackCounts], rfl⟩
  | node c l v r => by
    obtain ⟨a, ha, e⟩ := leftBlackCount_mem l
    refine ⟨a + if c = black then 1 else 0, ?_, ?_⟩
    · simp only [blackCounts, List.mem_map, List.mem_append]
      exact ⟨a, Or.inl ha, rfl⟩
    · simp only [leftBlackCount, e]; omega

theorem validRBTree_eq_nil_iff (t : Node α) : validRBTree t = [] ↔ RBInvariants t := by
  unfold validRBTree
  by_cases hc : t.color = black
  · simp only [hc, ne_eq, not_true_eq_false, ↓reduceIte, rbTest_eq_nil, RBInvariants,
      color_nullNode, true_and, equalBlackCounts, Nat.zero_add]
    obtain ⟨a, ha, e⟩ := leftBlackCount_mem t
    constructor
    · rintro ⟨h1, h2⟩
      refine ⟨h1, fun x hx y hy => ?_⟩
      have := h2 x hx; have := h2 y hy; omega
    · rintro ⟨h1, h2⟩
      refine ⟨h1, fun x hx => ?_⟩
      rw [e, h2 x hx a ha]
  · simp [hc, RBInvariants]

theorem Bal.setBlack_red {t : Node α} {n : Nat} (h : Bal t n) (hc : t.color = red) :
    Bal t.setBlack (n + 1) := by
  cases t with
  | nullNode => simp at hc
  | node c l v r =>
    simp only [color_node] at hc; subst hc
    exact ⟨n, rfl, h.2.2.1, h.2.2.2⟩

theorem Bal.setBlack_black {t : Node α} {n : Nat} (h : Bal t n) (hc : t.color = black) :
    Bal t.setBlack n := by
  cases t with
  | nullNode => exact h
  | node c l v r =>
    simp only [color_node] at hc; subst hc
    exact h

theorem DelInv.of_bal {x : Node α} {path : Path α} {n : Nat} (hp : PathBal path (n + 1))
    (hx : Bal x n) : DelInv x path n :=
  ⟨hp, fun _ => hx, fun hc => hx.setBlack_red hc⟩

theorem Bal.black_pos {t : Node α} {n : Nat} (h : Bal t (n + 1)) (hc : t.color = black) :
    ∃ l v r, t = node black l v r ∧ Bal l n ∧ Bal r n := by
  cases t with
  | nullNode => exact absurd h (by simp [Bal])
  | node c l v r =>
    simp only [color_node] at hc; subst hc
    obtain ⟨m, e, h1, h2⟩ := h
    have : m = n := by omega
    subst this
    exact ⟨l, v, r, rfl, h1, h2⟩

/-- What is left of a balanced parent chain above a frame of colour `pc` whose hole has
black height `n + 1`, stated for a subtree `t` of that colour put in the place of the frame. -/
theorem PathBal.fill_above {rest : Path α} {pc : Color} {n : Nat} {t : Node α}
    (hrest : if pc = red then headBlack rest ∧ PathBal rest (n + 1) else PathBal rest (n + 2))
    (hc : t.color = pc)
    (ht : if pc = red then Bal t (n + 1) else Bal t (n + 2)) :
    ∃ N, Bal (fill rest t) N := by
  cases pc with
  | red =>
    simp only [↓reduceIte] at hrest ht
    obtain ⟨N, h, -⟩ := Bal.fill rest t (n + 1) ht hrest.2 (Or.inl hrest.1)
    exact ⟨N, h⟩
  | black =>
    simp only [reduceCtorEq, ↓reduceIte] at hrest ht
    obtain ⟨N, h, -⟩ := Bal.fill rest t (n + 2) ht hrest (Or.inr (Or.inr hc))
    exact ⟨N, h⟩

theorem deleteFixLeft_spec (x : Node α) (pc : Color) (pv : α) (w : Node α) (rest : Path α)
    (n : Nat) (hx : Bal x n) (hw : Bal w (n + 1))
    (hwc : w.color = black)
    (hrest : if pc = red then headBlack rest ∧ PathBal rest (n + 1) else PathBal rest (n + 2)) :
    ∃ x1 path1 n1, deleteFixLeft x pc pv w rest = some (x1, path1) ∧ DelInv x1 path1 n1 ∧
      ((path1 = rest ∧ x1.color = pc) ∨ path1 = []) := by
  obtain ⟨wl, wv, wr, rfl, hwl, hwr⟩ := hw.black_pos hwc
  by_cases hb : wl.color = black ∧ wr.color = black
  · -- both children of the sibling are black: recolour, move up
    cases pc with
    | red =>
      simp only [↓reduceIte] at hrest
      refine ⟨node red x pv (node red wl wv wr), rest, n, by simp [deleteFixLeft, hb],
        ⟨hrest.2, by simp, fun _ => ?_⟩,
        Or.inl ⟨rfl, rfl⟩⟩
      exact ⟨n, rfl, hx, hb.1, hb.2, hwl, hwr⟩
    | black =>
      simp only [reduceCtorEq, ↓reduceIte] at hrest
      refine ⟨node black x pv (node red wl wv wr), rest, n + 1, by simp [deleteFixLeft, hb],
        ⟨hrest, fun _ => ?_, by simp⟩,
        Or.inl ⟨rfl, rfl⟩⟩
      exact ⟨n, rfl, hx, hb.1, hb.2, hwl, hwr⟩
  · by_cases hr : wr.color = black
    · -- far child black, near child red: rotate the sibling first
      have hl : wl.color = red := by
        rcases hcl : wl.color with _ | _
        · rfl
        · exact absurd ⟨hcl, hr⟩ hb
      cases wl with
      | nullNode => simp at hl
      | node lc a lv b =>
      simp only [color_node] at hl; subst hl
      obtain ⟨-, -, ha, hb'⟩ := hwl
      obtain ⟨N, hN⟩ := PathBal.fill_above (t := node pc (node black x pv a) lv (node black b wv wr))
        hrest rfl (by
          cases pc
          · exact ⟨rfl, rfl, ⟨n, rfl, hx, ha⟩, ⟨n, rfl, hb', hwr⟩⟩
          · exact ⟨n + 1, rfl, ⟨n, rfl, hx, ha⟩, ⟨n, rfl, hb', hwr⟩⟩)
      exact ⟨_, [], N, by simp [deleteFixLeft, hr, right_rotate, left_rotate],
        DelInv.of_bal trivial hN, Or.inr rfl⟩
    · have hr : wr.color = red := (Color.ne_black_iff _).1 hr
      cases wr with
      | nullNode => simp at hr
      | node rc c rv d =>
      simp only [color_node] at hr; subst hr
      obtain ⟨-, -, hc, hd⟩ := hwr
      obtain ⟨N, hN⟩ := PathBal.fill_above (t := node pc (node black x pv wl) wv (node black c rv d))
        hrest rfl (by
          cases pc
          · exact ⟨rfl, rfl, ⟨n, rfl, hx, hwl⟩, ⟨n, rfl, hc, hd⟩⟩
          · exact ⟨n + 1, rfl, ⟨n, rfl, hx, hwl⟩, ⟨n, rfl, hc, hd⟩⟩)
      exact ⟨_, [], N, by simp [deleteFixLeft, left_rotate],
        DelInv.of_bal trivial hN, Or.inr rfl⟩

theorem deleteFixRight_spec (x : Node α) (pc : Color) (pv : α) (w : Node α) (rest : Path α)
    (n : Nat) (hx : Bal x n) (hw : Bal w (n + 1))
    (hwc : w.color = black)
    (hrest : if pc = red then headBlack rest ∧ PathBal rest (n + 1) else PathBal rest (n + 2)) :
    ∃ x1 path1 n1, deleteFixRight x pc pv w rest = some (x1, path1) ∧ DelInv x1 path1 n1 ∧
      ((path1 = rest ∧ x1.color = pc) ∨ path1 = []) := by
  obtain ⟨wl, wv, wr, rfl, hwl, hwr⟩ := hw.black_pos hwc
  by_cases hb : wr.color = black ∧ wl.color = black
  · cases pc with
    | red =>
      simp only [↓reduceIte] at hrest
      refine ⟨node red (node red wl wv wr) pv x, rest, n, by simp [deleteFixRight, hb],
        ⟨hrest.2, by simp, fun _ => ?_⟩,
        Or.inl ⟨rfl, rfl⟩⟩
      exact ⟨n, rfl, ⟨hb.2, hb.1, hwl, hwr⟩, hx⟩
    | black =>
      simp only [reduceCtorEq, ↓reduceIte] at hrest
      refine ⟨node black (node red wl wv wr) pv x, rest, n + 1, by simp [deleteFixRight, hb],
        ⟨hrest, fun _ => ?_, by simp⟩,
        Or.inl ⟨rfl, rfl⟩⟩
      exact ⟨n, rfl, ⟨hb.2, hb.1, hwl, hwr⟩, hx⟩
  · by_cases hl : wl.color = black
    · have hr : wr.color = red := by
        rcases hcr : wr.color with _ | _
        · rfl
        · exact absurd ⟨hcr, hl⟩ hb
      cases wr with
      | nullNode => simp at hr
      | node rc a rv b =>
      simp only [color_node] at hr; subst hr
      obtain ⟨-, -, ha, hb'⟩ := hwr
      obtain ⟨N, hN⟩ := PathBal.fill_above (t := node pc (node black wl wv a) rv (node black b pv x))
        hrest rfl (by
          cases pc
          · exact ⟨rfl, rfl, ⟨n, rfl, hwl, ha⟩, ⟨n, rfl, hb', hx⟩⟩
          · exact ⟨n + 1, rfl, ⟨n, rfl, hwl, ha⟩, ⟨n, rfl, hb', hx⟩⟩)
      exact ⟨_, [], N, by simp [deleteFixRight, hl, right_rotate, left_rotate],
        DelInv.of_bal trivial hN, Or.inr rfl⟩
    · have hl : wl.color = red := (Color.ne_black_iff _).1 hl
      cases wl with
      | nullNode => simp at hl
      | node lc c lv d =>
      simp only [color_node] at hl; subst hl
      obtain ⟨-, -, hc, hd⟩ := hwl
      obtain ⟨N, hN⟩ := PathBal.fill_above (t := node pc (node black c lv d) wv (node black wr pv x))
        hrest rfl (by
          cases pc
          · exact ⟨rfl, rfl, ⟨n, rfl, hc, hd⟩, ⟨n, rfl, hwr, hx⟩⟩
          · exact ⟨n + 1, rfl, ⟨n, rfl, hc, hd⟩, ⟨n, rfl, hwr, hx⟩⟩)
      exact ⟨_, [], N, by simp [deleteFixRight, right_rotate],
        DelInv.of_bal trivial hN, Or.inr rfl⟩

theorem rbDeleteFixupLoop_bal : ∀ (fuel : Nat) (x : Node α) (path : Path α) (n : Nat),
    2 * path.length + (if x.color = black then 1 else 0) < fuel → DelInv x path n →
    ∃ x1 path1 n1, rbDeleteFixupLoop fuel x path = some (x1, path1) ∧ DelInv x1 path1 n1 ∧
      (path1 = [] ∨ x1.color = red) := by
  intro fuel
  induction fuel with
  | zero => intro x path n h; simp at h
  | succ fuel ih =>
    intro x path n hlen hinv
    match path, hlen, hinv with
    | [], _, hinv => exact ⟨x, [], n, by simp [rbDeleteFixupLoop], hinv, Or.inl rfl⟩
    | Frame.left pc pv w :: rest, hlen, hinv =>
      by_cases hxc : x.color = red
      · exact ⟨x, _, n, by simp [rbDeleteFixupLoop, hxc], hinv, Or.inr hxc⟩
      · have hxb : x.color = black := (Color.ne_red_iff _).1 hxc
        obtain ⟨hp, hx, -⟩ := hinv
        have hx := hx hxb
        simp only [hxb, ↓reduceIte, List.length_cons] at hlen
        cases pc with
        | red =>
          obtain ⟨hwc, hbw, hh, hrest⟩ := hp
          obtain ⟨wl, wv, wr, rfl, -, -⟩ := hbw.black_pos hwc
          obtain ⟨x1, path1, n1, e, hinv1, hcase⟩ :=
            deleteFixLeft_spec x red pv (node black wl wv wr) rest n hx hbw rfl ⟨hh, hrest⟩
          have e1 : rbDeleteFixupLoop (fuel + 1) x (Frame.left red pv (node black wl wv wr) :: rest)
              = rbDeleteFixupLoop fuel x1 path1 := by
            cases x <;> simp [rbDeleteFixupLoop, hxb, e]
          rw [e1]
          refine ih x1 path1 n1 ?_ hinv1
          rcases hcase with ⟨rfl, hc⟩ | rfl
          · simp only [hc, reduceCtorEq, ↓reduceIte]; omega
          · simp only [List.length_nil]; split <;> omega
        | black =>
          obtain ⟨hbw, hrest⟩ := hp
          by_cases hwc : w.color = black
          · obtain ⟨wl, wv, wr, rfl, -, -⟩ := hbw.black_pos hwc
            obtain ⟨x1, path1, n1, e, hinv1, hcase⟩ :=
              deleteFixLeft_spec x black pv (node black wl wv wr) rest n hx hbw rfl hrest
            have e1 : rbDeleteFixupLoop (fuel + 1) x (Frame.left black pv (node black wl wv wr) :: rest)
                = rbDeleteFixupLoop fuel x1 path1 := by
              cases x <;> simp [rbDeleteFixupLoop, hxb, e]
            rw [e1]
            refine ih x1 path1 n1 ?_ hinv1
            rcases hcase with ⟨rfl, hc⟩ | rfl
            · split <;> omega
            · simp only [List.length_nil]; split <;> omega
          · have hwc : w.color = red := (Color.ne_black_iff _).1 hwc
            cases w with
            | nullNode => simp at hwc
            | node wc wl wv wr =>
            simp only [color_node] at hwc; subst hwc
            obtain ⟨hcl, hcr, hbwl, hbwr⟩ := hbw
            obtain ⟨x1, path1, n1, e, hinv1, hcase⟩ :=
              deleteFixLeft_spec x red pv wl (Frame.left black wv wr :: rest) n hx hbwl hcl
                ⟨rfl, ⟨hbwr, hrest⟩⟩
            have e1 : rbDeleteFixupLoop (fuel + 1) x (Frame.left black pv (node red wl wv wr) :: rest)
                = rbDeleteFixupLoop fuel x1 path1 := by
              cases x <;> simp [rbDeleteFixupLoop, hxb, e, left_rotate, right_rotate]
            rw [e1]
            refine ih x1 path1 n1 ?_ hinv1
            rcases hcase with ⟨rfl, hc⟩ | rfl
            · simp only [hc, reduceCtorEq, ↓reduceIte, List.length_cons]; omega
            · simp only [List.length_nil]; split <;> omega
    | Frame.right pc w pv :: rest, hlen, hinv =>
      by_cases hxc : x.color = red
      · exact ⟨x, _, n, by simp [rbDeleteFixupLoop, hxc], hinv, Or.inr hxc⟩
      · have hxb : x.color = black := (Color.ne_red_iff _).1 hxc
        obtain ⟨hp, hx, -⟩ := hinv
        have hx := hx hxb
        simp only [hxb, ↓reduceIte, List.length_cons] at hlen
        cases pc with
        | red =>
          obtain ⟨hwc, hbw, hh, hrest⟩ := hp
          obtain ⟨wl, wv, wr, rfl, -, -⟩ := hbw.black_pos hwc
          obtain ⟨x1, path1, n1, e, hinv1, hcase⟩ :=
            deleteFixRight_spec x red pv (node black wl wv wr) rest n hx hbw rfl ⟨hh, hrest⟩
          have e1 : rbDeleteFixupLoop (fuel + 1) x (Frame.right red (node black wl wv wr) pv :: rest)
              = rbDeleteFixupLoop fuel x1 path1 := by
            cases x <;> simp [rbDeleteFixupLoop, hxb, e]
          rw [e1]
          refine ih x1 path1 n1 ?_ hinv1
          rcases hcase with ⟨rfl, hc⟩ | rfl
          · simp only [hc, reduceCtorEq, ↓reduceIte]; omega
          · simp only [List.length_nil]; split <;> omega
        | black =>
          obtain ⟨hbw, hrest⟩ := hp
          by_cases hwc : w.color = black
          · obtain ⟨wl, wv, wr, rfl, -, -⟩ := hbw.black_pos hwc
            obtain ⟨x1, path1, n1, e, hinv1, hcase⟩ :=
              deleteFixRight_spec x black pv (node black wl wv wr) rest n hx hbw rfl hrest
            have e1 : rbDeleteFixupLoop (fuel + 1) x (Frame.right black (node black wl wv wr) pv :: rest)
                = rbDeleteFixupLoop fuel x1 path1 := by
              cases x <;> simp [rbDeleteFixupLoop, hxb, e]
            rw [e1]
            refine ih x1 path1 n1 ?_ hinv1
            rcases hcase with ⟨rfl, hc⟩ | rfl
            · split <;> omega
            · simp only [List.length_nil]; split <;> omega
          · have hwc : w.color = red := (Color.ne_black_iff _).1 hwc
            cases w with
            | nullNode => simp at hwc
            | node wc wl wv wr =>
            simp only [color_node] at hwc; subst hwc
            obtain ⟨hcl, hcr, hbwl, hbwr⟩ := hbw
            obtain ⟨x1, path1, n1, e, hinv1, hcase⟩ :=
              deleteFixRight_spec x red pv wr (Frame.right black wl wv :: rest) n hx hbwr hcr
                ⟨rfl, ⟨hbwl, hrest⟩⟩
            have e1 : rbDeleteFixupLoop (fuel + 1) x (Frame.right black (node red wl wv wr) pv :: rest)
                = rbDeleteFixupLoop fuel x1 path1 := by
              cases x <;> simp [rbDeleteFixupLoop, hxb, e, left_rotate, right_rotate]
            rw [e1]
            refine ih x1 path1 n1 ?_ hinv1
            rcases hcase with ⟨rfl, hc⟩ | rfl
            · simp only [hc, reduceCtorEq, ↓reduceIte, List.length_cons]; omega
            · simp only [List.length_nil]; split <;> omega

theorem rbDeleteFixup_bal (x : Node α) (path : Path α) (n : Nat) (hinv : DelInv x path n) :
    ∃ t N, rbDeleteFixup x path = some t ∧ Bal t N ∧ t.color = black := by
  obtain ⟨x1, path1, n1, e, ⟨hp, hb, hr⟩, hcase⟩ :=
    rbDeleteFixupLoop_bal (2 * path.length + 2) x path n (by split <;> omega) hinv
  have e1 : rbDeleteFixup x path = some (fill path1 x1.setBlack) := by
    simp [rbDeleteFixup, e]
  by_cases hc : x1.color = red
  · obtain ⟨N, h1, h2⟩ := Bal.fill path1 _ _ (hr hc) hp (Or.inr (Or.inr (color_setBlack _)))
    refine ⟨_, N, e1, h1, ?_⟩
    cases path1 with
    | nil => exact color_setBlack _
    | cons f rest => exact h2 (by simp)
  · have hc : x1.color = black := (Color.ne_red_iff _).1 hc
    have hnil : path1 = [] := by
      rcases hcase with h | h
      · exact h
      · rw [hc] at h; cases h
    subst hnil
    exact ⟨_, n1, e1, (hb hc).setBlack_black hc, color_setBlack _⟩

theorem minimum_append : ∀ (t : Node α) (path : Path α),
    minimum t path = ((minimum t []).1, (minimum t []).2 ++ path)
  | nullNode, path => rfl
  | node c nullNode x r, path => rfl
  | node c (node lc ll lx lr) x r, path => by
    rw [minimum, minimum_append (node lc ll lx lr) (Frame.left c x r :: path)]
    conv => rhs; rw [minimum, minimum_append (node lc ll lx lr) [Frame.left c x r]]
    simp

theorem minimum_left : ∀ (c : Color) (l : Node α) (v : α) (r : Node α) (path : Path α),
    ∃ yc yv x, (minimum (node c l v r) path).1 = node yc nullNode yv x
  | c, nullNode, v, r, path => ⟨c, v, r, rfl⟩
  | c, node lc ll lx lr, v, r, path => by
    rw [minimum]
    exact minimum_left lc ll lx lr _

theorem minimum_inv : ∀ (t : Node α) (path : Path α) (n : Nat),
    Bal t n → PathBal path n → (t.color = red → headBlack path) →
    ∃ m, Bal (minimum t path).1 m ∧ PathBal (minimum t path).2 m ∧
      ((minimum t path).1.color = red → headBlack (minimum t path).2)
  | nullNode, path, n, hb, hp, hc => ⟨n, hb, hp, hc⟩
  | node c nullNode x r, path, n, hb, hp, hc => ⟨n, hb, hp, hc⟩
  | node red (node lc ll lx lr) x r, path, n, hb, hp, hc => by
    obtain ⟨hl, hr, hbl, hbr⟩ := hb
    rw [minimum]
    exact minimum_inv _ _ n hbl ⟨hr, hbr, hc rfl, hp⟩ (by simp [hl])
  | node black (node lc ll lx lr) x r, path, n, hb, hp, hc => by
    obtain ⟨m, rfl, hbl, hbr⟩ := hb
    rw [minimum]
    exact minimum_inv _ _ m hbl ⟨hbr, hp⟩ (fun _ => rfl)

theorem rbDelete_bal (zc : Color) (zl : Node α) (zv : α) (zr : Node α) (path : Path α) (m : Nat)
    (hb : Bal (node zc zl zv zr) m) (hp : PathBal path m) (hc : zc = red → headBlack path) :
    ∃ t N, rbDelete (node zc zl zv zr) path = some t ∧ Bal t N ∧ t.color = black := by
  -- a child `x` replacing a node `z` with a sentinel child
  have one : ∀ x : Node α, Bal (node zc nullNode zv x) m ∨ Bal (node zc x zv nullNode) m →
      ∃ t N, (if zc = black then rbDeleteFixup x path else some (fill path x)) = some t ∧
        Bal t N ∧ t.color = black := by
    intro x hx
    cases zc with
    | black =>
      have hx0 : m = 1 ∧ Bal x 0 := by
        rcases hx with ⟨k, rfl, h1, h2⟩ | ⟨k, rfl, h1, h2⟩
        · have : k = 0 := h1
          subst this; exact ⟨rfl, h2⟩
        · have : k = 0 := h2
          subst this; exact ⟨rfl, h1⟩
      obtain ⟨rfl, hx0⟩ := hx0
      simpa using rbDeleteFixup_bal x path 0 (DelInv.of_bal hp hx0)
    | red =>
      have hh := hc rfl
      have hx0 : x.color = black ∧ Bal x m := by
        rcases hx with ⟨-, h1, -, h2⟩ | ⟨h1, -, h2, -⟩ <;> exact ⟨h1, h2⟩
      obtain ⟨N, h1, h2⟩ := Bal.fill path x m hx0.2 hp (Or.inr (Or.inr hx0.1))
      refine ⟨_, N, by simp, h1, h2 ?_⟩
      rintro rfl; exact hh
  match zl, zr, hb with
  | nullNode, zr, hb => simpa [rbDelete, rbTransplant] using one zr (Or.inl hb)
  | node lc ll lv lr, nullNode, hb => simpa [rbDelete, rbTransplant] using one _ (Or.inr hb)
  | node lc ll lv lr, node rc rl rv rr, hb =>
    obtain ⟨yc, yv, x, hy⟩ := minimum_left rc rl rv rr ([] : Path α)
    have hmin : minimum (node rc rl rv rr) [] = (node yc nullNode yv x, (minimum (node rc rl rv rr) []).2) := by
      rw [← hy]
    generalize (minimum (node rc rl rv rr) []).2 = rel at hmin
    have key : ∃ j, Bal (node yc nullNode yv x) j ∧
        PathBal (rel ++ Frame.right zc (node lc ll lv lr) yv :: path) j ∧
        (yc = red → headBlack (rel ++ Frame.right zc (node lc ll lv lr) yv :: path)) := by
      have h0 : ∃ k, Bal (node rc rl rv rr) k ∧
          PathBal (Frame.right zc (node lc ll lv lr) yv :: path) k ∧
          ((node rc rl rv rr).color = red →
            headBlack (Frame.right zc (node lc ll lv lr) yv :: path)) := by
        cases zc with
        | red =>
          obtain ⟨h1, h2, h3, h4⟩ := hb
          exact ⟨m, h4, ⟨h1, h3, hc rfl, hp⟩, fun h => by simp [h] at h2⟩
        | black =>
          obtain ⟨k, rfl, h3, h4⟩ := hb
          exact ⟨k, h4, ⟨h3, hp⟩, fun _ => rfl⟩
      obtain ⟨k, h1, h2, h3⟩ := h0
      have := minimum_inv (node rc rl rv rr) _ k h1 h2 h3
      rw [minimum_append, hmin] at this
      exact this
    obtain ⟨j, hby, hpy, hcy⟩ := key
    have e : rbDelete (node zc (node lc ll lv lr) zv (node rc rl rv rr)) path =
        if yc = black then rbDeleteFixup x (rel ++ Frame.right zc (node lc ll lv lr) yv :: path)
        else some (fill (rel ++ Frame.right zc (node lc ll lv lr) yv :: path) x) := by
      simp [rbDelete, rbTransplant, hmin]
    rw [e]
    cases yc with
    | black =>
      obtain ⟨k, rfl, h1, h2⟩ := hby
      have : k = 0 := h1
      subst this
      simpa using rbDeleteFixup_bal x _ 0 (DelInv.of_bal hpy h2)
    | red =>
      obtain ⟨-, h1, -, h2⟩ := hby
      obtain ⟨N, h3, h4⟩ := Bal.fill _ x j h2 hpy (Or.inr (Or.inr h1))
      exact ⟨_, N, by simp, h3, h4 (by simp)⟩

section Ordered
variable [LinearOrder α]

theorem searchNode_inv (value : α) : ∀ (t : Node α) (path : Path α) (n : Nat) (z : Node α)
    (zpath : Path α), Bal t n → PathBal path n → (t.color = red → headBlack path) →
    searchNode value t path = some (z, zpath) →
    ∃ zc zl zv zr m, z = node zc zl zv zr ∧ Bal z m ∧ PathBal zpath m ∧
      (zc = red → headBlack zpath)
  | nullNode, path, n, z, zpath, _, _, _, h => by simp [searchNode] at h
  | node c l x r, path, n, z, zpath, hb, hp, hc, h => by
    unfold searchNode at h
    split at h
    · cases h
      exact ⟨c, l, x, r, n, rfl, hb, hp, hc⟩
    · cases c with
      | red =>
        obtain ⟨hl, hr, hbl, hbr⟩ := hb
        split at h
        · exact searchNode_inv value l (Frame.left red x r :: path) n z zpath hbl ⟨hr, hbr, hc rfl, hp⟩
            (by simp [hl]) h
        · exact searchNode_inv value r (Frame.right red l x :: path) n z zpath hbr ⟨hl, hbl, hc rfl, hp⟩
            (by simp [hr]) h
      | black =>
        obtain ⟨m, rfl, hbl, hbr⟩ := hb
        split at h
        · exact searchNode_inv value l (Frame.left black x r :: path) m z zpath hbl ⟨hbr, hp⟩
            (fun _ => rfl) h
        · exact searchNode_inv value r (Frame.right black l x :: path) m z zpath hbr ⟨hbl, hp⟩
            (fun _ => rfl) h

theorem del_bal (t : Node α) (v : α) (n : Nat) (hb : Bal t n) (hc : t.color = black) :
    ∃ b t1 m, del t v = some (b, t1) ∧ Bal t1 m ∧ t1.color = black := by
  unfold del
  cases h : searchNode v t [] with
  | none => exact ⟨false, t, n, rfl, hb, hc⟩
  | some p =>
    obtain ⟨z, zpath⟩ := p
    obtain ⟨zc, zl, zv, zr, m, rfl, h1, h2, h3⟩ :=
      searchNode_inv v t [] n z zpath hb trivial (by simp [hc]) h
    obtain ⟨t1, N, e, h4, h5⟩ := rbDelete_bal zc zl zv zr zpath m h1 h2 h3
    exact ⟨true, t1, N, by simp [e], h4, h5⟩

end Ordered

/-! ### C1, C2: the mutations preserve the red-black invariants -/

/-- C1: `insert` preserves the red-black invariants. For every tree satisfying invariants
2 to 5 and every key `k`, present or not, `insert(k)` returns a tree that satisfies the same
invariants, and `validRBTree` prints no diagnostic on it. -/
theorem insert_preserves_invariants [LinearOrder α] (t : Node α) (k : α) (h : RBInvariants t) :
    ∃ t1, insert t k = some t1 ∧ RBInvariants t1 ∧ validRBTree t1 = [] := by
  obtain ⟨hc, n, hb⟩ := (rbInvariants_iff t).1 h
  obtain ⟨t1, m, e, hb1, hc1⟩ := insert_bal t k n hb hc
  have h1 : RBInvariants t1 := (rbInvariants_iff t1).2 ⟨hc1, m, hb1⟩
  exact ⟨t1, e, h1, (validRBTree_eq_nil_iff t1).2 h1⟩

/-- Witness of C1: inserting the key 22, already present, into the valid tree holding
8, 22, 100. -/
theorem insert_preserves_invariants_witness :
    RBInvariants (node black (node red nullNode 8 nullNode) 22 (node red nullNode 100 nullNode)) ∧
    ∃ t1, insert (node black (node red nullNode 8 nullNode) 22 (node red nullNode 100 nullNode)) 22
        = some t1 ∧ RBInvariants t1 ∧ validRBTree t1 = [] :=
  ⟨by decide, insert_preserves_invariants _ 22 (by decide)⟩

/-- C2: `del` preserves the red-black invariants. For every tree satisfying invariants 2 to 5
and every key `k` (in particular every key present in it), `del(k)` returns, and the tree
after it has a black root or is empty, a black sentinel, no red node with a red child and
equal black counts on all root-to-sentinel paths, so `validRBTree` prints no diagnostic. -/
theorem del_preserves_invariants [LinearOrder α] (t : Node α) (k : α) (h : RBInvariants t) :
    ∃ b t1, del t k = some (b, t1) ∧ RBInvariants t1 ∧ validRBTree t1 = [] := by
  obtain ⟨hc, n, hb⟩ := (rbInvariants_iff t).1 h
  obtain ⟨b, t1, m, e, hb1, hc1⟩ := del_bal t k n hb hc
  have h1 : RBInvariants t1 := (rbInvariants_iff t1).2 ⟨hc1, m, hb1⟩
  exact ⟨b, t1, e, h1, (validRBTree_eq_nil_iff t1).2 h1⟩

/-- Witness of C2: deleting the black leaf 8 from a valid tree of four keys. -/
theorem del_preserves_invariants_witness :
    RBInvariants (node black (node black nullNode 8 nullNode) 22
      (node black nullNode 28 (node red nullNode 100 nullNode))) ∧
    ∃ b t1, del (node black (node black nullNode 8 nullNode) 22
      (node black nullNode 28 (node red nullNode 100 nullNode))) 8 = some (b, t1) ∧
      RBInvariants t1 ∧ validRBTree t1 = [] :=
  ⟨by decide, del_preserves_invariants _ 8 (by decide)⟩

theorem left_rotate_eq_some {t t1 : Node α} (h : left_rotate t = some t1) :
    ∃ c a v c1 b w d, t = node c a v (node c1 b w d) ∧ t1 = node c1 (node c a v b) w d := by
  unfold left_rotate at h
  split at h
  · cases h; exact ⟨_, _, _, _, _, _, _, rfl, rfl⟩
  · cases h

theorem right_rotate_eq_some {t t1 : Node α} (h : right_rotate t = some t1) :
    ∃ c c1 a w b v d, t = node c (node c1 a w b) v d ∧ t1 = node c1 a w (node c b v d) := by
  unfold right_rotate at h
  split at h
  · cases h; exact ⟨_, _, _, _, _, _, _, rfl, rfl⟩
  · cases h

@[simp] theorem inorder_setBlack (t : Node α) : inorder t.setBlack = inorder t := by
  cases t <;> rfl

theorem insert_fixup_loop_inorder : ∀ (fuel : Nat) (z : Node α) (path : Path α) (z1 : Node α)
    (path1 : Path α), insert_fixup_loop fuel z path = some (z1, path1) →
    inorder (fill path1 z1) = inorder (fill path z) := by
  intro fuel
  induction fuel with
  | zero => intro z path z1 path1 h; simp [insert_fixup_loop] at h
  | succ fuel ih =>
    intro z path z1 path1 h
    match path with
    | [] => simp [insert_fixup_loop] at h
    | [pf] =>
      simp only [insert_fixup_loop] at h
      split at h
      · cases h
      · cases h; rfl
    | pf :: gf :: rest =>
      cases pf <;> cases gf <;> cases z <;>
        simp only [insert_fixup_loop, left_rotate, right_rotate, Frame.color] at h <;>
        (repeat' split at h) <;>
        first
        | (cases h; done)
        | (cases h; simp [inorder_fill, pathBefore, pathAfter, inorder]; done)
        | (rw [ih _ _ _ _ h]; simp [inorder_fill, pathBefore, pathAfter, inorder]; done)

theorem insert_fixup_inorder (z : Node α) (path : Path α) (t : Node α)
    (h : insert_fixup z path = some t) : inorder t = inorder (fill path z) := by
  unfold insert_fixup at h
  split at h
  · rename_i z1 path1 e
    cases h
    rw [inorder_setBlack, insert_fixup_loop_inorder _ _ _ _ _ e]
  · cases h

theorem deleteFixLeft_inorder (x : Node α) (pc : Color) (pv : α) (w : Node α) (rest : Path α)
    (x1 : Node α) (path1 : Path α) (h : deleteFixLeft x pc pv w rest = some (x1, path1)) :
    inorder (fill path1 x1) = inorder (fill (Frame.left pc pv w :: rest) x) := by
  unfold deleteFixLeft at h
  cases w with
  | nullNode => cases h
  | node wc wl wv wr =>
    by_cases hr : wr.color = black <;> cases wl <;>
      simp only [hr, left_rotate, right_rotate, setBlack_node, setBlack_nullNode, ↓reduceIte]
        at h <;>
      (repeat' split at h) <;>
      first
      | (cases h; done)
      | (cases h; simp [inorder_fill, pathBefore, pathAfter, inorder, fill, Frame.plug]; done)

theorem deleteFixRight_inorder (x : Node α) (pc : Color) (pv : α) (w : Node α) (rest : Path α)
    (x1 : Node α) (path1 : Path α) (h : deleteFixRight x pc pv w rest = some (x1, path1)) :
    inorder (fill path1 x1) = inorder (fill (Frame.right pc w pv :: rest) x) := by
  unfold deleteFixRight at h
  cases w with
  | nullNode => cases h
  | node wc wl wv wr =>
    by_cases hl : wl.color = black <;> cases wr <;>
      simp only [hl, left_rotate, right_rotate, setBlack_node, setBlack_nullNode, ↓reduceIte]
        at h <;>
      (repeat' split at h) <;>
      first
      | (cases h; done)
      | (cases h; simp [inorder_fill, pathBefore, pathAfter, inorder, fill, Frame.plug]; done)

theorem rbDeleteFixupLoop_inorder : ∀ (fuel : Nat) (x : Node α) (path : Path α) (x1 : Node α)
    (path1 : Path α), rbDeleteFixupLoop fuel x path = some (x1, path1) →
    inorder (fill path1 x1) = inorder (fill path x) := by
  intro fuel
  induction fuel with
  | zero => intro x path x1 path1 h; simp [rbDeleteFixupLoop] at h
  | succ fuel ih =>
    intro x path x1 path1 h
    match path with
    | [] => simp [rbDeleteFixupLoop] at h; obtain ⟨rfl, rfl⟩ := h; rfl
    | Frame.left pc pv w :: rest =>
      simp only [rbDeleteFixupLoop] at h
      split at h
      · cases h; rfl
      · split at h
        · rename_i x2 path2 e
          rw [ih _ _ _ _ h]
          split at e
          · simp only [left_rotate] at e
            rw [deleteFixLeft_inorder _ _ _ _ _ _ _ e]
            simp [inorder_fill, pathBefore, pathAfter, inorder]
          · exact deleteFixLeft_inorder _ _ _ _ _ _ _ e
        · cases h
    | Frame.right pc w pv :: rest =>
      simp only [rbDeleteFixupLoop] at h
      split at h
      · cases h; rfl
      · split at h
        · rename_i x2 path2 e
          rw [ih _ _ _ _ h]
          split at e
          · cases e
          · simp only [right_rotate] at e
            rw [deleteFixRight_inorder _ _ _ _ _ _ _ e]
            simp [inorder_fill, pathBefore, pathAfter, inorder]
          · exact deleteFixRight_inorder _ _ _ _ _ _ _ e
        · cases h

theorem rbDeleteFixup_inorder (x : Node α) (path : Path α) (t : Node α)
    (h : rbDeleteFixup x path = some t) : inorder t = inorder (fill path x) := by
  unfold rbDeleteFixup at h
  split at h
  · rename_i x1 path1 e
    cases h
    rw [← rbDeleteFixupLoop_inorder _ _ _ _ _ e]
    simp [inorder_fill]
  · cases h

theorem pathBefore_append (p q : Path α) : pathBefore (p ++ q) = pathBefore q ++ pathBefore p := by
  induction p with
  | nil => simp [pathBefore]
  | cons f p ih => cases f <;> simp [pathBefore, ih]

theorem pathAfter_append (p q : Path α) : pathAfter (p ++ q) = pathAfter p ++ pathAfter q := by
  induction p with
  | nil => simp [pathAfter]
  | cons f p ih => cases f <;> simp [pathAfter, ih]

theorem minimum_fill : ∀ (t : Node α) (path : Path α),
    fill (minimum t path).2 (minimum t path).1 = fill path t
  | nullNode, path => rfl
  | node c nullNode x r, path => rfl
  | node c (node lc ll lx lr) x r, path => by
    rw [minimum, minimum_fill]; rfl

theorem minimum_pathBefore : ∀ (t : Node α) (path : Path α),
    pathBefore (minimum t path).2 = pathBefore path
  | nullNode, path => rfl
  | node c nullNode x r, path => rfl
  | node c (node lc ll lx lr) x r, path => by
    rw [minimum, minimum_pathBefore]; rfl

theorem rbDelete_inorder (zc : Color) (zl : Node α) (zv : α) (zr : Node α) (path : Path α)
    (t : Node α) (h : rbDelete (node zc zl zv zr) path = some t) :
    inorder t = pathBefore path ++ (inorder zl ++ inorder zr) ++ pathAfter path := by
  have one : ∀ x : Node α,
      (if zc = black then rbDeleteFixup x path else some (fill path x)) = some t →
      inorder t = pathBefore path ++ inorder x ++ pathAfter path := by
    intro x hx
    split at hx
    · rw [rbDeleteFixup_inorder _ _ _ hx, inorder_fill]
    · cases hx; rw [inorder_fill]
  match zl, zr, h with
  | nullNode, zr, h =>
    simp only [rbDelete, rbTransplant] at h
    simpa [inorder] using one _ h
  | node lc ll lv lr, nullNode, h =>
    simp only [rbDelete, rbTransplant] at h
    simpa [inorder] using one _ h
  | node lc ll lv lr, node rc rl rv rr, h =>
    obtain ⟨yc, yv, x, hy⟩ := minimum_left rc rl rv rr ([] : Path α)
    have hmin : minimum (node rc rl rv rr) [] =
        (node yc nullNode yv x, (minimum (node rc rl rv rr) []).2) := by
      rw [← hy]
    have hfill := minimum_fill (node rc rl rv rr) []
    have hbef := minimum_pathBefore (node rc rl rv rr) []
    generalize (minimum (node rc rl rv rr) []).2 = rel at hmin hfill hbef
    rw [hy] at hfill
    have hr : inorder (node rc rl rv rr) = yv :: inorder x ++ pathAfter rel := by
      have := congrArg inorder hfill
      rw [inorder_fill, hbef] at this
      simpa [fill, inorder, pathBefore] using this.symm
    simp only [rbDelete, rbTransplant, hmin] at h
    have hres : inorder t = inorder (fill (rel ++ Frame.right zc (node lc ll lv lr) yv :: path) x) := by
      split at h
      · exact rbDeleteFixup_inorder _ _ _ h
      · cases h; rfl
    rw [hres, inorder_fill, pathBefore_append, pathAfter_append, hr, hbef]
    simp [pathBefore, pathAfter]

section Ordered
variable [LinearOrder α]

theorem fill_insertDescend (v : α) : ∀ (t : Node α) (path : Path α),
    fill (insertDescend v t path) nullNode = fill path t
  | nullNode, path => rfl
  | node c l x r, path => by
    unfold insertDescend
    split
    · rw [fill_insertDescend v l]; rfl
    · rw [fill_insertDescend v r]; rfl

theorem insertDescend_bounds (v : α) : ∀ (t : Node α) (path : Path α),
    (inorder (fill path t)).Sorted (· ≤ ·) →
    (∀ a ∈ pathBefore path, a ≤ v) → (∀ b ∈ pathAfter path, v < b) →
    (∀ a ∈ pathBefore (insertDescend v t path), a ≤ v) ∧
      (∀ b ∈ pathAfter (insertDescend v t path), v < b)
  | nullNode, path, _, h1, h2 => ⟨h1, h2⟩
  | node c l x r, path, hs, h1, h2 => by
    have hs' := hs
    rw [inorder_fill] at hs'
    simp only [inorder, List.Sorted, List.pairwise_append, List.pairwise_cons, List.mem_append,
      List.mem_cons] at hs'
    obtain ⟨⟨-, ⟨-, ⟨hxr, -⟩, hlx⟩, -⟩, -, -⟩ := hs'
    unfold insertDescend
    split
    · rename_i hlt
      refine insertDescend_bounds v l _ hs h1 ?_
      intro b hb
      simp only [pathAfter, List.mem_append, List.mem_cons] at hb
      rcases hb with (rfl | hb) | hb
      · exact hlt
      · exact lt_of_lt_of_le hlt (hxr b hb)
      · exact h2 b hb
    · rename_i hlt
      have hxv : x ≤ v := not_lt.1 hlt
      refine insertDescend_bounds v r _ hs ?_ h2
      intro a ha
      simp only [pathBefore, List.mem_append, List.mem_cons, List.mem_singleton,
        List.not_mem_nil, or_false] at ha
      rcases ha with ha | ha | rfl
      · exact h1 a ha
      · exact le_trans (hlx a ha x (Or.inl rfl)) hxv
      · exact hxv

theorem insert_inorder (t : Node α) (v : α) (t1 : Node α) (h : insert t v = some t1) :
    inorder t1 = pathBefore (insertDescend v t []) ++ v :: pathAfter (insertDescend v t []) ∧
    inorder t = pathBefore (insertDescend v t []) ++ pathAfter (insertDescend v t []) := by
  have h2 : inorder t = pathBefore (insertDescend v t []) ++ pathAfter (insertDescend v t []) := by
    have := congrArg inorder (fill_insertDescend v t [])
    rw [inorder_fill] at this
    simpa [inorder, fill] using this.symm
  refine ⟨?_, h2⟩
  unfold insert at h
  generalize insertDescend v t [] = P at h ⊢
  match P, h with
  | [], h => cases h; simp [inorder, pathBefore, pathAfter]
  | [pf], h =>
    cases h
    have := inorder_fill [pf] (node red nullNode v nullNode)
    simpa [fill, inorder] using this
  | pf :: gf :: rest, h =>
    simp only at h
    rw [insert_fixup_inorder _ _ _ h, inorder_fill]
    simp [inorder]

theorem insert_perm (t : Node α) (v : α) (t1 : Node α) (h : insert t v = some t1) :
    (inorder t1).Perm (v :: inorder t) := by
  obtain ⟨h1, h2⟩ := insert_inorder t v t1 h
  rw [h1, h2]
  exact List.perm_middle

theorem insert_sorted (t : Node α) (v : α) (t1 : Node α) (hs : (inorder t).Sorted (· ≤ ·))
    (h : insert t v = some t1) : (inorder t1).Sorted (· ≤ ·) := by
  obtain ⟨h1, h2⟩ := insert_inorder t v t1 h
  obtain ⟨hb, ha⟩ := insertDescend_bounds v t [] hs (by simp [pathBefore]) (by simp [pathAfter])
  rw [h2] at hs
  rw [h1]
  simp only [List.Sorted, List.pairwise_append, List.pairwise_cons, List.mem_cons] at hs ⊢
  refine ⟨hs.1, ⟨fun b hb => le_of_lt (ha b hb), hs.2.1⟩, ?_⟩
  rintro a ha' b (rfl | hb')
  · exact hb a ha'
  · exact hs.2.2 a ha' b hb'

theorem searchNode_fill (v : α) : ∀ (t : Node α) (path : Path α) (z : Node α) (zpath : Path α),
    searchNode v t path = some (z, zpath) →
    fill zpath z = fill path t ∧ ∃ c l r, z = node c l v r
  | nullNode, path, z, zpath, h => by simp [searchNode] at h
  | node c l x r, path, z, zpath, h => by
    unfold searchNode at h
    split at h
    · rename_i hv
      cases h
      exact ⟨rfl, c, l, r, by rw [hv]⟩
    · split at h
      · exact searchNode_fill v l _ z zpath h
      · exact searchNode_fill v r _ z zpath h

theorem searchNode_isSome (v : α) : ∀ (t : Node α) (path : Path α),
    (searchNode v t path).isSome = search t v
  | nullNode, path => rfl
  | node c l x r, path => by
    unfold searchNode search
    split
    · rfl
    · split
      · exact searchNode_isSome v l _
      · exact searchNode_isSome v r _

theorem search_iff_mem (v : α) : ∀ (t : Node α), (inorder t).Sorted (· ≤ ·) →
    (search t v = true ↔ v ∈ inorder t)
  | nullNode, _ => by simp [search, inorder]
  | node c l x r, hs => by
    simp only [inorder, List.Sorted, List.pairwise_append, List.pairwise_cons, List.mem_cons] at hs
    obtain ⟨hl, ⟨hxr, hr⟩, hlr⟩ := hs
    unfold search
    simp only [inorder, List.mem_append, List.mem_cons]
    split
    · rename_i hv; simp [hv]
    · rename_i hv
      split
      · rename_i hlt
        rw [search_iff_mem v l hl]
        constructor
        · exact Or.inl
        · rintro (h | h | h)
          · exact h
          · exact absurd h hv
          · exact absurd (hxr v h) (not_le.2 hlt)
      · rename_i hlt
        rw [search_iff_mem v r hr]
        constructor
        · exact fun h => Or.inr (Or.inr h)
        · rintro (h | h | h)
          · have := hlr v h x (Or.inl rfl)
            exact absurd (lt_of_le_of_ne this hv) hlt
          · exact absurd h hv
          · exact h

theorem del_true_inorder (t : Node α) (v : α) (t1 : Node α) (h : del t v = some (true, t1)) :
    ∃ l1 l2, inorder t = l1 ++ v :: l2 ∧ inorder t1 = l1 ++ l2 := by
  unfold del at h
  split at h
  · rename_i z zpath e
    obtain ⟨hf, c, l, r, rfl⟩ := searchNode_fill v t [] z zpath e
    split at h
    · rename_i t2 e2
      cases h
      refine ⟨pathBefore zpath ++ inorder l, inorder r ++ pathAfter zpath, ?_, ?_⟩
      · have := congrArg inorder hf
        rw [inorder_fill] at this
        simpa [fill, inorder] using this.symm
      · rw [rbDelete_inorder _ _ _ _ _ _ e2]; simp
    · cases h
  · cases h

theorem del_false (t : Node α) (v : α) (t1 : Node α) (h : del t v = some (false, t1)) :
    t1 = t ∧ search t v = false := by
  unfold del at h
  split at h
  · split at h <;> cases h
  · rename_i e
    cases h
    refine ⟨rfl, ?_⟩
    rw [← searchNode_isSome v t [], e]; rfl

theorem del_true_search (t : Node α) (v : α) (t1 : Node α) (h : del t v = some (true, t1)) :
    search t v = true := by
  unfold del at h
  split at h
  · rename_i z zpath e
    rw [← searchNode_isSome v t [], e]; rfl
  · cases h

end Ordered

/-! ### The iterative traversal prints the in-order key sequence -/

theorem displayInOrderLoop_some_node (fuel : Nat) (c : Color) (l : Node α) (v : α) (r : Node α)
    (s : List (Node α)) (out : List α) :
    displayInOrderLoop (fuel + 1) (some (node c l v r)) s out =
      displayInOrderLoop (fuel + 1) (some l) (node c l v r :: s) out := by
  simp [displayInOrderLoop, pushLeft]

theorem displayInOrderLoop_subtree : ∀ (t : Node α) (s : List (Node α)) (out : List α)
    (fuel : Nat),
    displayInOrderLoop (fuel + (2 * t.size + 1)) (some t) s out =
      displayInOrderLoop fuel none s (out ++ inorder t)
  | nullNode, s, out, fuel => by
    simp [displayInOrderLoop, pushLeft, Node.size, Node.rightPtr, inorder]
  | node c l v r, s, out, fuel => by
    have e1 : fuel + (2 * (node c l v r).size + 1) = (fuel + (2 * r.size + 1) + 1) + (2 * l.size + 1) := by
      simp only [Node.size]; omega
    rw [e1, show fuel + (2 * r.size + 1) + 1 + (2 * l.size + 1) =
      (fuel + (2 * r.size + 1) + 1 + 2 * l.size) + 1 by omega, displayInOrderLoop_some_node,
      show (fuel + (2 * r.size + 1) + 1 + 2 * l.size) + 1 =
      fuel + (2 * r.size + 1) + 1 + (2 * l.size + 1) by omega, displayInOrderLoop_subtree l]
    have e2 : displayInOrderLoop (fuel + (2 * r.size + 1) + 1) none (node c l v r :: s)
        (out ++ inorder l) =
        displayInOrderLoop (fuel + (2 * r.size + 1)) (some r) s (out ++ inorder l ++ [v]) := by
      simp [displayInOrderLoop, Node.rightPtr]
    rw [e2, displayInOrderLoop_subtree r]
    simp [inorder]

theorem displayInOrder_eq (t : Node α) : displayInOrder t = some (inorder t) := by
  have := displayInOrderLoop_subtree t [] [] 1
  rw [show 1 + (2 * t.size + 1) = 2 * t.size + 2 by omega] at this
  rw [displayInOrder, this]
  simp [displayInOrderLoop]

/-! ### Invariants of the trees built by `insert` and `del` -/

theorem rbInvariants_nullNode : RBInvariants (nullNode : Node α) :=
  (rbInvariants_iff _).2 ⟨rfl, 0, rfl⟩

section Ordered
variable [LinearOrder α]

theorem applyOp_inv (t : Node α) (op : Op α) (h : RBInvariants t)
    (hs : (inorder t).Sorted (· ≤ ·)) :
    ∃ t1, applyOp t op = some t1 ∧ RBInvariants t1 ∧ (inorder t1).Sorted (· ≤ ·) := by
  cases op with
  | insert v =>
    obtain ⟨hc, n, hb⟩ := (rbInvariants_iff t).1 h
    obtain ⟨t1, m, e, hb1, hc1⟩ := insert_bal t v n hb hc
    exact ⟨t1, e, (rbInvariants_iff t1).2 ⟨hc1, m, hb1⟩, insert_sorted t v t1 hs e⟩
  | del v =>
    obtain ⟨hc, n, hb⟩ := (rbInvariants_iff t).1 h
    obtain ⟨b, t1, m, e, hb1, hc1⟩ := del_bal t v n hb hc
    refine ⟨t1, by simp [applyOp, e], (rbInvariants_iff t1).2 ⟨hc1, m, hb1⟩, ?_⟩
    cases b with
    | false => rw [(del_false t v t1 e).1]; exact hs
    | true =>
      obtain ⟨l1, l2, e1, e2⟩ := del_true_inorder t v t1 e
      rw [e1] at hs
      rw [e2]
      exact hs.sublist (List.Sublist.append_left (List.sublist_cons_self v l2) l1)

theorem run_inv : ∀ (ops : List (Op α)) (t : Node α), RBInvariants t →
    (inorder t).Sorted (· ≤ ·) →
    ∃ t1, run ops t = some t1 ∧ RBInvariants t1 ∧ (inorder t1).Sorted (· ≤ ·)
  | [], t, h, hs => ⟨t, rfl, h, hs⟩
  | op :: ops, t, h, hs => by
    obtain ⟨t1, e, h1, hs1⟩ := applyOp_inv t op h hs
    obtain ⟨t2, e2, h2, hs2⟩ := run_inv ops t1 h1 hs1
    exact ⟨t2, by simp [run, e, e2], h2, hs2⟩

theorem run_nullNode (ops : List (Op α)) :
    ∃ t, run ops nullNode = some t ∧ RBInvariants t ∧ (inorder t).Sorted (· ≤ ·) :=
  run_inv ops nullNode rbInvariants_nullNode (by simp [inorder])

theorem Reachable.inv {t : Node α} (h : Reachable t) :
    RBInvariants t ∧ (inorder t).Sorted (· ≤ ·) := by
  obtain ⟨ops, e⟩ := h
  obtain ⟨t1, e1, h1⟩ := run_nullNode ops
  rw [e] at e1
  cases e1
  exact h1

end Ordered

section Ordered
variable [LinearOrder α]

theorem bstWeak_of_sorted : ∀ (t : Node α), (inorder t).Sorted (· ≤ ·) → bstWeak t
  | nullNode, _ => trivial
  | node c l x r, hs => by
    simp only [inorder, List.Sorted, List.pairwise_append, List.pairwise_cons, List.mem_cons] at hs
    obtain ⟨hl, ⟨hxr, hr⟩, hlr⟩ := hs
    exact ⟨fun a ha => hlr a ha x (Or.inl rfl), hxr, bstWeak_of_sorted l hl, bstWeak_of_sorted r hr⟩

theorem bstStrict_of_sorted_nodup : ∀ (t : Node α), (inorder t).Sorted (· ≤ ·) →
    (inorder t).Nodup → bstStrict t
  | nullNode, _, _ => trivial
  | node c l x r, hs, hd => by
    simp only [inorder, List.Sorted, List.pairwise_append, List.pairwise_cons, List.mem_cons] at hs
    obtain ⟨hl, ⟨hxr, hr⟩, hlr⟩ := hs
    simp only [inorder, List.nodup_append, List.nodup_cons] at hd
    obtain ⟨hdl, ⟨-, hdr⟩, hdis⟩ := hd
    refine ⟨fun a ha => lt_of_le_of_ne (hlr a ha x (Or.inl rfl)) ?_, hxr,
      bstStrict_of_sorted_nodup l hl hdl, bstStrict_of_sorted_nodup r hr hdr⟩
    rintro rfl
    exact hdis ha (List.mem_cons_self _ _)

theorem insert_some (t : Node α) (k : α) (h : RBInvariants t) :
    ∃ t1, insert t k = some t1 ∧ RBInvariants t1 := by
  obtain ⟨hc, n, hb⟩ := (rbInvariants_iff t).1 h
  obtain ⟨t1, m, e, hb1, hc1⟩ := insert_bal t k n hb hc
  exact ⟨t1, e, (rbInvariants_iff t1).2 ⟨hc1, m, hb1⟩⟩

theorem del_some (t : Node α) (k : α) (h : RBInvariants t) :
    ∃ b t1, del t k = some (b, t1) ∧ RBInvariants t1 := by
  obtain ⟨hc, n, hb⟩ := (rbInvariants_iff t).1 h
  obtain ⟨b, t1, m, e, hb1, hc1⟩ := del_bal t k n hb hc
  exact ⟨b, t1, e, (rbInvariants_iff t1).2 ⟨hc1, m, hb1⟩⟩

theorem erase_of_sorted_split (k : α) (l l1 l2 : List α) (hs : l.Sorted (· ≤ ·))
    (e : l = l1 ++ k :: l2) : l1 ++ l2 = l.erase k := by
  have hmem : k ∈ l := by rw [e]; simp
  have hp1 : l.Perm (k :: l.erase k) := List.perm_cons_erase hmem
  have hp2 : l.Perm (k :: (l1 ++ l2)) := by rw [e]; exact List.perm_middle
  have hp : (l1 ++ l2).Perm (l.erase k) := (hp2.symm.trans hp1).cons_inv
  have hs1 : (l1 ++ l2).Sorted (· ≤ ·) := by
    rw [e] at hs
    exact hs.sublist (List.Sublist.append_left (List.sublist_cons_self k l2) l1)
  have hs2 : (l.erase k).Sorted (· ≤ ·) := hs.sublist (List.erase_sublist k l)
  exact List.eq_of_perm_of_sorted hp hs1 hs2

/-- C4, as stated, fails: three inserts of the key 5 end in a root 5 whose left child is 5,
a left-subtree key that is not strictly less than the key of its node. -/
theorem bstStrict_counterexample :
    run [Op.insert 5, Op.insert 5, Op.insert 5] (nullNode : Node Nat) =
      some (node black (node red nullNode 5 nullNode) 5 (node red nullNode 5 nullNode)) ∧
    ¬ bstStrict (node black (node red nullNode 5 nullNode) 5 (node red nullNode 5 nullNode)) := by
  decide

/-- C4, amended: after every finite sequence of `insert` and `del` applied to the empty tree,
equal keys allowed, at every node of the resulting tree the keys of the left subtree are less
than or equal to its key and the keys of the right subtree are greater or equal; when the
tree holds no two equal keys the keys of every left subtree are strictly less. -/
theorem bstWeak_after_ops (ops : List (Op α)) :
    ∃ t, run ops nullNode = some t ∧ bstWeak t ∧ ((inorder t).Nodup → bstStrict t) := by
  obtain ⟨t, e, -, hs⟩ := run_nullNode ops
  exact ⟨t, e, bstWeak_of_sorted t hs, bstStrict_of_sorted_nodup t hs⟩

/-- C5: on a tree built by `insert` and `del`, `del(k)` returns true exactly when a node with
key `k` is in the tree, and when it returns false the tree is unchanged. -/
theorem del_true_iff_present (t : Node α) (k : α) (h : Reachable t) :
    ∃ b t1, del t k = some (b, t1) ∧ (b = true ↔ k ∈ inorder t) ∧ (b = false → t1 = t) := by
  obtain ⟨hinv, hs⟩ := h.inv
  obtain ⟨b, t1, e, -⟩ := del_some t k hinv
  refine ⟨b, t1, e, ?_, ?_⟩
  · cases b with
    | true => simp [← search_iff_mem k t hs, del_true_search t k t1 e]
    | false => simp [← search_iff_mem k t hs, (del_false t k t1 e).2]
  · rintro rfl
    exact (del_false t k t1 e).1

/-- Witness of C5: deleting the present key 22 and the absent key 9 from the tree built by
inserting 8, 100, 22. -/
theorem del_true_iff_present_witness :
    Reachable (node black (node red nullNode 8 nullNode) 22 (node red nullNode 100 nullNode)) ∧
    ∃ b t1, del (node black (node red nullNode 8 nullNode) 22 (node red nullNode 100 nullNode)) 9
        = some (b, t1) ∧
      (b = true ↔ 9 ∈ inorder (node black (node red nullNode 8 nullNode) 22
        (node red nullNode 100 nullNode))) ∧
      (b = false → t1 = node black (node red nullNode 8 nullNode) 22
        (node red nullNode 100 nullNode)) :=
  ⟨⟨[Op.insert 8, Op.insert 100, Op.insert 22], by decide⟩,
    del_true_iff_present _ 9 ⟨[Op.insert 8, Op.insert 100, Op.insert 22], by decide⟩⟩

/-- C6: a successful `del` removes exactly one key. On a tree built by `insert` and `del`
and for a key `k` present in it, possibly several times, `del(k)` returns true, the
in-order key sequence afterwards is the one before with one occurrence of `k` removed, the
size drops by one and every other key keeps its multiplicity. -/
theorem del_removes_one (t : Node α) (k : α) (h : Reachable t) (hk : k ∈ inorder t) :
    ∃ t1, del t k = some (true, t1) ∧ inorder t1 = (inorder t).erase k ∧
      (inorder t1).length + 1 = (inorder t).length ∧
      (inorder t1).count k + 1 = (inorder t).count k ∧
      ∀ j, j ≠ k → (inorder t1).count j = (inorder t).count j := by
  obtain ⟨hinv, hs⟩ := h.inv
  obtain ⟨b, t1, e, -⟩ := del_some t k hinv
  have hb : b = true := by
    cases b with
    | true => rfl
    | false =>
      have := (del_false t k t1 e).2
      rw [← Bool.not_eq_true, search_iff_mem k t hs] at this
      exact absurd hk this
  subst hb
  obtain ⟨l1, l2, e1, e2⟩ := del_true_inorder t k t1 e
  have he : inorder t1 = (inorder t).erase k := by
    rw [e2]; exact erase_of_sorted_split k _ l1 l2 hs e1
  refine ⟨t1, e, he, ?_, ?_, ?_⟩
  · rw [he, List.length_erase_of_mem hk]
    have : 0 < (inorder t).length := List.length_pos_of_mem hk
    omega
  · rw [he, List.count_erase_self]
    have : 0 < (inorder t).count k := List.count_pos_iff.2 hk
    omega
  · intro j hj
    rw [he, List.count_erase_of_ne hj]

/-- Witness of C6: deleting one of the two keys 5 of the tree built by inserting 5, 5, 7. -/
theorem del_removes_one_witness :
    Reachable (node black (node red nullNode 5 nullNode) 5 (node red nullNode 7 nullNode)) ∧
    5 ∈ inorder (node black (node red nullNode 5 nullNode) 5 (node red nullNode 7 nullNode)) ∧
    ∃ t1, del (node black (node red nullNode 5 nullNode) 5 (node red nullNode 7 nullNode)) 5
        = some (true, t1) ∧
      inorder t1 = (inorder (node black (node red nullNode 5 nullNode) 5
        (node red nullNode 7 nullNode))).erase 5 ∧
      (inorder t1).length + 1 = (inorder (node black (node red nullNode 5 nullNode) 5
        (node red nullNode 7 nullNode))).length ∧
      (inorder t1).count 5 + 1 = (inorder (node black (node red nullNode 5 nullNode) 5
        (node red nullNode 7 nullNode))).count 5 ∧
      ∀ j, j ≠ 5 → (inorder t1).count j = (inorder (node black (node red nullNode 5 nullNode) 5
        (node red nullNode 7 nullNode))).count j :=
  ⟨⟨[Op.insert 5, Op.insert 7, Op.insert 5], by decide⟩, by decide,
    del_removes_one _ 5 ⟨[Op.insert 5, Op.insert 7, Op.insert 5], by decide⟩ (by decide)⟩

/-- C7: `insert` adds exactly one key and never deduplicates. On a tree built by `insert` and
`del` and for every key `k`, `insert(k)` returns a tree whose in-order key sequence is a
permutation of `k` prepended to the sequence before, so the size grows by one, also when `k`
was already present. -/
theorem insert_adds_one (t : Node α) (k : α) (h : Reachable t) :
    ∃ t1, insert t k = some t1 ∧ (inorder t1).Perm (k :: inorder t) ∧
      (inorder t1).length = (inorder t).length + 1 := by
  obtain ⟨t1, e, -⟩ := insert_some t k h.inv.1
  have hp := insert_perm t k t1 e
  exact ⟨t1, e, hp, by simpa using hp.length_eq⟩

/-- Witness of C7: inserting the key 5 into a tree that already holds it. -/
theorem insert_adds_one_witness :
    Reachable (node black nullNode 5 (node red nullNode 7 nullNode)) ∧
    ∃ t1, insert (node black nullNode 5 (node red nullNode 7 nullNode)) 5 = some t1 ∧
      (inorder t1).Perm (5 :: inorder (node black nullNode 5 (node red nullNode 7 nullNode))) ∧
      (inorder t1).length = (inorder (node black nullNode 5 (node red nullNode 7 nullNode))).length + 1 :=
  ⟨⟨[Op.insert 5, Op.insert 7], by decide⟩,
    insert_adds_one _ 5 ⟨[Op.insert 5, Op.insert 7], by decide⟩⟩

end Ordered

section Ordered
variable [LinearOrder α]

theorem run_append : ∀ (a b : List (Op α)) (t : Node α),
    run (a ++ b) t = (run a t).bind (run b)
  | [], b, t => rfl
  | op :: a, b, t => by
    simp only [List.cons_append, run]
    cases applyOp t op with
    | none => rfl
    | some t1 => exact run_append a b t1

theorem applyOp_mem (t : Node α) (op : Op α) (t1 : Node α) (k : α) (e : applyOp t op = some t1)
    (hop : op ≠ Op.del k) (hk : k ∈ inorder t) : k ∈ inorder t1 := by
  cases op with
  | insert v =>
    exact (insert_perm t v t1 e).mem_iff.2 (List.mem_cons_of_mem _ hk)
  | del v =>
    have hv : v ≠ k := fun h => hop (by rw [h])
    simp only [applyOp] at e
    split at e
    · rename_i b t2 e2
      cases e
      cases b with
      | false => rw [(del_false t v t1 e2).1]; exact hk
      | true =>
        obtain ⟨l1, l2, e3, e4⟩ := del_true_inorder t v t1 e2
        rw [e3] at hk
        rw [e4]
        simp only [List.mem_append, List.mem_cons] at hk ⊢
        rcases hk with h | h | h
        · exact Or.inl h
        · exact absurd h.symm hv
        · exact Or.inr h
    · cases e

theorem run_mem : ∀ (ops : List (Op α)) (t t1 : Node α) (k : α), run ops t = some t1 →
    Op.del k ∉ ops → k ∈ inorder t → k ∈ inorder t1
  | [], t, t1, k, e, _, hk => by cases e; exact hk
  | op :: ops, t, t1, k, e, hn, hk => by
    simp only [run] at e
    split at e
    · rename_i t2 e2
      simp only [List.mem_cons, not_or] at hn
      exact run_mem ops t2 t1 k e hn.2 (applyOp_mem t op t2 k e2 (Ne.symm hn.1) hk)
    · cases e

/-- C8: presence round trip. For every sequence of `insert` and `del` applied to the empty
tree that contains an `insert(k)` after which no `del(k)` follows, the sequence returns a tree
and `search(k)` is true on it. -/
theorem search_true_of_inserted (pre post : List (Op α)) (k : α) (h : Op.del k ∉ post) :
    ∃ t, run (pre ++ Op.insert k :: post) nullNode = some t ∧ search t k = true := by
  obtain ⟨t, e, -, hs⟩ := run_nullNode (pre ++ Op.insert k :: post)
  refine ⟨t, e, (search_iff_mem k t hs).2 ?_⟩
  rw [run_append] at e
  cases e0 : run pre nullNode with
  | none => rw [e0] at e; cases e
  | some t0 =>
    rw [e0] at e
    simp only [Option.some_bind, run] at e
    split at e
    · rename_i t1 e1
      refine run_mem post t1 t k e h ?_
      exact (insert_perm t0 k t1 e1).mem_iff.2 (List.mem_cons_self _ _)
    · cases e

/-- Witness of C8: 7 is inserted twice and deleted once in between; after the last insert
only another key is deleted. -/
theorem search_true_of_inserted_witness :
    Op.del 7 ∉ [Op.del 3, Op.insert 9] ∧
    ∃ t, run ([Op.insert 7, Op.insert 3, Op.del 7] ++ Op.insert 7 :: [Op.del 3, Op.insert 9])
        (nullNode : Node Nat) = some t ∧ search t 7 = true :=
  ⟨by decide, search_true_of_inserted [Op.insert 7, Op.insert 3, Op.del 7]
    [Op.del 3, Op.insert 9] 7 (by decide)⟩

theorem count_balance (k : α) : ∀ (ops : List (Op α)) (t t1 : Node α),
    (inorder t).Sorted (· ≤ ·) → RBInvariants t → run ops t = some t1 →
    (inorder t1).count k + delTrueCount k ops t = (inorder t).count k + insertCount k ops
  | [], t, t1, _, _, e => by cases e; simp [delTrueCount, insertCount]
  | Op.insert v :: ops, t, t1, hs, hinv, e => by
    simp only [run, applyOp] at e
    split at e
    · rename_i t2 e2
      obtain ⟨t3, e3, hinv3⟩ := insert_some t v hinv
      rw [e2] at e3; cases e3
      have ih := count_balance k ops t2 t1 (insert_sorted t v t2 hs e2) hinv3 e
      have hc := (insert_perm t v t2 e2).count_eq k
      simp only [delTrueCount, insertCount, e2]
      rw [List.count_cons] at hc
      by_cases hv : v = k
      · simp only [hv, beq_self_eq_true, ↓reduceIte] at hc ⊢; omega
      · have : (v == k) = false := by simpa using hv
        simp only [this, hv, ↓reduceIte] at hc ⊢
        simp at hc
        omega
    · cases e
  | Op.del v :: ops, t, t1, hs, hinv, e => by
    simp only [run, applyOp] at e
    split at e
    · rename_i t2 e2
      split at e2
      · rename_i b t3 e3
        cases e2
        obtain ⟨b', t4, e4, hinv4⟩ := del_some t v hinv
        rw [e3] at e4; cases e4
        simp only [delTrueCount, insertCount, e3]
        cases b with
        | false =>
          obtain ⟨rfl, -⟩ := del_false t v t2 e3
          have ih := count_balance k ops t2 t1 hs hinv e
          simp only [Bool.false_eq_true, and_false, ↓reduceIte]
          omega
        | true =>
          obtain ⟨l1, l2, h1, h2⟩ := del_true_inorder t v t2 e3
          have hs2 : (inorder t2).Sorted (· ≤ ·) := by
            rw [h1] at hs; rw [h2]
            exact hs.sublist (List.Sublist.append_left (List.sublist_cons_self v l2) l1)
          have ih := count_balance k ops t2 t1 hs2 hinv4 e
          have hc : (inorder t).count k = (inorder t2).count k + if v = k then 1 else 0 := by
            rw [h1, h2]
            simp only [List.count_append, List.count_cons]
            by_cases hv : v = k
            · simp [hv]; omega
            · have : (v == k) = false := by simpa using hv
              simp [this, hv]
          by_cases hv : v = k
          · simp only [hv, and_self, ↓reduceIte] at hc ⊢; omega
          · simp only [hv, false_and, ↓reduceIte] at hc ⊢; omega
      · cases e2
    · cases e

theorem insertCount_eq_zero (k : α) : ∀ (ops : List (Op α)), Op.insert k ∉ ops →
    insertCount k ops = 0
  | [], _ => rfl
  | Op.insert v :: ops, h => by
    simp only [List.mem_cons, not_or] at h
    have hv : v ≠ k := fun e => h.1 (by rw [e])
    simp [insertCount, hv, insertCount_eq_zero k ops h.2]
  | Op.del v :: ops, h => by
    simp only [List.mem_cons, not_or] at h
    simp [insertCount, insertCount_eq_zero k ops h.2]

/-- C9, as stated, fails: after `insert(5)`, `insert(5)`, `del(5)` the last `del(5)` returned
true and no `insert(5)` follows it, yet `search(5)` is true, a second 5 is still stored. -/
theorem search_after_delete_counterexample :
    AlreadyDeleted [Op.insert 5, Op.insert 5, Op.del 5] (5 : Nat) ∧
    ∃ t, run [Op.insert 5, Op.insert 5, Op.del 5] (nullNode : Node Nat) = some t ∧
      search t 5 = true :=
  ⟨⟨[Op.insert 5, Op.insert 5], [], node black nullNode 5 (node red nullNode 5 nullNode),
      node black nullNode 5 nullNode, by decide, by decide, by decide, by decide⟩,
    node black nullNode 5 nullNode, by decide, by decide⟩

/-- C9, amended: absence round trip. For every sequence of `insert` and `del` applied to the
empty tree and every key `k` that was never inserted, or that was deleted as often as it was
inserted (as many `del(k)` returned true as there are `insert(k)`), the sequence returns a
tree and `search(k)` is false on it. -/
theorem search_false_of_absent (ops : List (Op α)) (k : α)
    (h : Op.insert k ∉ ops ∨ delTrueCount k ops nullNode = insertCount k ops) :
    ∃ t, run ops nullNode = some t ∧ search t k = false := by
  obtain ⟨t, e, -, hs⟩ := run_nullNode ops
  refine ⟨t, e, ?_⟩
  have hb := count_balance k ops nullNode t (by simp [inorder]) rbInvariants_nullNode e
  simp only [inorder, List.count_nil, Nat.zero_add] at hb
  have hc : (inorder t).count k = 0 := by
    rcases h with h | h
    · rw [insertCount_eq_zero k ops h] at hb; omega
    · omega
  rw [← Bool.not_eq_true, search_iff_mem k t hs]
  exact List.count_eq_zero.1 hc

/-- Witness of C9 amended: 5 is inserted twice and deleted twice. -/
theorem search_false_of_absent_witness :
    (Op.insert 5 ∉ [Op.insert 5, Op.insert (5 : Nat), Op.del 5, Op.insert 3, Op.del 5] ∨
      delTrueCount 5 [Op.insert 5, Op.insert 5, Op.del 5, Op.insert 3, Op.del 5] nullNode =
        insertCount 5 [Op.insert 5, Op.insert 5, Op.del 5, Op.insert 3, Op.del 5]) ∧
    ∃ t, run [Op.insert 5, Op.insert 5, Op.del 5, Op.insert 3, Op.del 5] (nullNode : Node Nat)
      = some t ∧ search t 5 = false :=
  ⟨by decide, search_false_of_absent _ 5 (by decide)⟩

end Ordered

theorem successorClimb_spec : ∀ (n : Node α) (path : Path α),
    (pathAfter path = [] → successorClimb n path = none) ∧
    (∀ b l2, pathAfter path = b :: l2 → ∃ c l r p, successorClimb n path = some (node c l b r, p))
  | n, [] => ⟨fun _ => rfl, fun b l2 h => by simp [pathAfter] at h⟩
  | n, Frame.right c l v :: rest => by
    simpa [pathAfter, successorClimb] using successorClimb_spec (node c l v n) rest
  | n, Frame.left c v r :: rest => by
    refine ⟨fun h => by simp [pathAfter] at h, fun b l2 h => ?_⟩
    simp only [pathAfter, List.cons_append, List.cons.injEq] at h
    exact ⟨c, n, r, rest, by rw [successorClimb, h.1]⟩

theorem minimum_head (rc : Color) (rl : Node α) (rv : α) (rr : Node α) (path : Path α) :
    ∃ yc yv x p, minimum (node rc rl rv rr) path = (node yc nullNode yv x, p) ∧
      (inorder (node rc rl rv rr)).head? = some yv := by
  obtain ⟨yc, yv, x, hy⟩ := minimum_left rc rl rv rr path
  have hfill := minimum_fill (node rc rl rv rr) path
  have hbef := minimum_pathBefore (node rc rl rv rr) path
  refine ⟨yc, yv, x, (minimum (node rc rl rv rr) path).2, by rw [← hy], ?_⟩
  rw [hy] at hfill
  have := congrArg inorder hfill
  rw [inorder_fill, inorder_fill, hbef] at this
  simp only [List.append_assoc, List.append_cancel_left_eq] at this
  cases h : inorder (node rc rl rv rr) with
  | nil => simp [inorder] at h
  | cons a as =>
    rw [h] at this
    simp only [inorder, List.nil_append, List.cons_append, List.cons.injEq] at this
    simp [this.1]

theorem successorNode_spec (c : Color) (l : Node α) (a : α) (r : Node α) (path : Path α) :
    (inorder r ++ pathAfter path = [] → successorNode (some (node c l a r, path)) = none) ∧
    (∀ b l2, inorder r ++ pathAfter path = b :: l2 →
      ∃ c1 l1 r1 p, successorNode (some (node c l a r, path)) = some (node c1 l1 b r1, p)) := by
  cases r with
  | nullNode =>
    simpa [successorNode, inorder] using successorClimb_spec (node c l a nullNode) path
  | node rc rl rv rr =>
    obtain ⟨yc, yv, x, p, e, hh⟩ := minimum_head rc rl rv rr (Frame.right c l a :: path)
    refine ⟨fun h => ?_, fun b l2 h => ?_⟩
    · simp [inorder] at h
    · refine ⟨yc, nullNode, x, p, ?_⟩
      rw [successorNode, e]
      cases h1 : inorder (node rc rl rv rr) with
      | nil => simp [inorder] at h1
      | cons a1 as =>
        rw [h1] at hh h
        simp only [List.head?_cons, Option.some.injEq] at hh
        simp only [List.cons_append, List.cons.injEq] at h
        rw [← h.1, hh]

section Ordered
variable [LinearOrder α]

theorem searchNode_decomp (t : Node α) (a : α) (hs : (inorder t).Sorted (· ≤ ·))
    (ha : a ∈ inorder t) :
    ∃ c l r zpath, searchNode a t [] = some (node c l a r, zpath) ∧
      inorder t = (pathBefore zpath ++ inorder l) ++ a :: (inorder r ++ pathAfter zpath) := by
  have h1 : (searchNode a t []).isSome = true := by
    rw [searchNode_isSome, search_iff_mem a t hs]; exact ha
  cases e : searchNode a t [] with
  | none => rw [e] at h1; cases h1
  | some p =>
    obtain ⟨z, zpath⟩ := p
    obtain ⟨hf, c, l, r, rfl⟩ := searchNode_fill a t [] z zpath e
    refine ⟨c, l, r, zpath, rfl, ?_⟩
    have := congrArg inorder hf
    rw [inorder_fill] at this
    simpa [fill, inorder] using this.symm

theorem successor_of_split (t : Node α) (a : α) (l1 rest : List α)
    (hs : (inorder t).Sorted (· ≤ ·)) (hd : (inorder t).Nodup) (e : inorder t = l1 ++ a :: rest) :
    ∃ c l r zpath, searchNode a t [] = some (node c l a r, zpath) ∧
      inorder r ++ pathAfter zpath = rest := by
  obtain ⟨c, l, r, zpath, e1, e2⟩ := searchNode_decomp t a hs (by rw [e]; simp)
  refine ⟨c, l, r, zpath, e1, ?_⟩
  rw [e] at hd e2
  have hd' := hd
  simp only [List.nodup_append, List.nodup_cons] at hd'
  have hx : a ∉ l1 := fun h => hd'.2.2 h (List.mem_cons_self _ _)
  have := (List.append_cons_inj_of_not_mem hx hd'.2.1.1).1 e2
  exact this.2.2.symm

/-- C10: successor correctness. On a tree built by `insert` and `del` that holds distinct keys,
for two keys `a`, `b` adjacent in the (sorted) in-order sequence `suc(a)` returns `b` and
prints nothing, and for the largest key `successorNode` returns null, so that `suc` prints
its diagnostic and returns `T{}`. -/
theorem suc_correct [Inhabited α] (t : Node α) (h : Reachable t) (hd : (inorder t).Nodup) :
    (∀ l1 a b l2, inorder t = l1 ++ a :: b :: l2 → suc t a = (b, [])) ∧
    (∀ l1 a, inorder t = l1 ++ [a] →
      successorNode (searchNode a t []) = none ∧
      suc t a = (default, [("suc called with invalid argument: ", a)])) := by
  have hs := h.inv.2
  constructor
  · intro l1 a b l2 e
    obtain ⟨c, l, r, zpath, e1, e2⟩ := successor_of_split t a l1 (b :: l2) hs hd e
    obtain ⟨c1, l3, r1, p, e3⟩ := (successorNode_spec c l a r zpath).2 b l2 e2
    simp [suc, e1, e3]
  · intro l1 a e
    obtain ⟨c, l, r, zpath, e1, e2⟩ := successor_of_split t a l1 [] hs hd e
    have e3 := (successorNode_spec c l a r zpath).1 e2
    rw [e1]
    exact ⟨e3, by simp [suc, e1, e3]⟩

/-- Witness of C10 on the tree built by inserting 8, 100, 22, 28, 26. -/
theorem suc_correct_witness :
    Reachable (node black (node black nullNode 8 nullNode) 22
      (node black (node red nullNode 26 nullNode) 28 (node red nullNode 100 nullNode))) ∧
    (inorder (node black (node black nullNode 8 nullNode) 22
      (node black (node red nullNode 26 nullNode) 28 (node red nullNode 100 nullNode)))).Nodup ∧
    suc (node black (node black nullNode 8 nullNode) 22
      (node black (node red nullNode 26 nullNode) 28 (node red nullNode 100 nullNode))) 22
      = (26, []) ∧
    successorNode (searchNode 100 (node black (node black nullNode 8 nullNode) 22
      (node black (node red nullNode 26 nullNode) 28 (node red nullNode 100 nullNode))) [])
      = none :=
  ⟨⟨[Op.insert 8, Op.insert 100, Op.insert 22, Op.insert 28, Op.insert 26], by decide⟩,
    by decide,
    (suc_correct _ ⟨[Op.insert 8, Op.insert 100, Op.insert 22, Op.insert 28, Op.insert 26],
      by decide⟩ (by decide)).1 [8] 22 26 [28, 100] (by decide),
    ((suc_correct _ ⟨[Op.insert 8, Op.insert 100, Op.insert 22, Op.insert 28, Op.insert 26],
      by decide⟩ (by decide)).2 [8, 22, 26, 28] 100 (by decide)).1⟩

end Ordered

theorem maximum_right : ∀ (c : Color) (l : Node α) (v : α) (r : Node α) (path : Path α),
    ∃ yc x yv, (maximum (node c l v r) path).1 = node yc x yv nullNode
  | c, l, v, nullNode, path => ⟨c, l, v, rfl⟩
  | c, l, v, node rc rl rx rr, path => by
    rw [maximum]
    exact maximum_right rc rl rx rr _

theorem maximum_fill : ∀ (t : Node α) (path : Path α),
    fill (maximum t path).2 (maximum t path).1 = fill path t
  | nullNode, path => rfl
  | node c l x nullNode, path => rfl
  | node c l x (node rc rl rx rr), path => by
    rw [maximum, maximum_fill]; rfl

theorem maximum_pathAfter : ∀ (t : Node α) (path : Path α),
    pathAfter (maximum t path).2 = pathAfter path
  | nullNode, path => rfl
  | node c l x nullNode, path => rfl
  | node c l x (node rc rl rx rr), path => by
    rw [maximum, maximum_pathAfter]; rfl

theorem inorder_ne_nil (c : Color) (l : Node α) (v : α) (r : Node α) :
    inorder (node c l v r) ≠ [] := by
  simp [inorder]

theorem maximum_last : ∀ (c : Color) (l : Node α) (v : α) (r : Node α) (path : Path α),
    ∃ yc x yv p, maximum (node c l v r) path = (node yc x yv nullNode, p) ∧
      (inorder (node c l v r)).getLast? = some yv
  | c, l, v, nullNode, path => ⟨c, l, v, path, rfl, by simp [inorder]⟩
  | c, l, v, node rc rl rx rr, path => by
    obtain ⟨yc, x, yv, p, e, h⟩ := maximum_last rc rl rx rr (Frame.right c l v :: path)
    refine ⟨yc, x, yv, p, by rw [maximum, e], ?_⟩
    have hne := inorder_ne_nil rc rl rx rr
    rw [inorder, List.getLast?_append, List.getLast?_cons]
    cases hr : inorder (node rc rl rx rr) with
    | nil => exact absurd hr hne
    | cons b bs =>
      rw [hr] at h
      simp [h]

theorem predecessorClimb_spec : ∀ (n : Node α) (path : Path α),
    (pathBefore path = [] → predecessorClimb n path = none) ∧
    (∀ l0 b, pathBefore path = l0 ++ [b] →
      ∃ c l r p, predecessorClimb n path = some (node c l b r, p))
  | n, [] => ⟨fun _ => rfl, fun l0 b h => by simp [pathBefore] at h⟩
  | n, Frame.left c v r :: rest => by
    simpa [pathBefore, predecessorClimb] using predecessorClimb_spec (node c n v r) rest
  | n, Frame.right c l v :: rest => by
    refine ⟨fun h => by simp [pathBefore] at h, fun l0 b h => ?_⟩
    simp only [pathBefore, ← List.append_assoc] at h
    have := List.append_inj_right' h rfl
    simp only [List.cons.injEq, and_true] at this
    exact ⟨c, l, n, rest, by rw [predecessorClimb, this]⟩

theorem predecessorNode_spec (c : Color) (l : Node α) (a : α) (r : Node α) (path : Path α) :
    (pathBefore path ++ inorder l = [] → predecessorNode (some (node c l a r, path)) = none) ∧
    (∀ l0 b, pathBefore path ++ inorder l = l0 ++ [b] →
      ∃ c1 l1 r1 p, predecessorNode (some (node c l a r, path)) = some (node c1 l1 b r1, p)) := by
  cases l with
  | nullNode =>
    simpa [predecessorNode, inorder] using predecessorClimb_spec (node c nullNode a r) path
  | node lc ll lv lr =>
    obtain ⟨yc, x, yv, p, e, hh⟩ := maximum_last lc ll lv lr (Frame.left c a r :: path)
    refine ⟨fun h => ?_, fun l0 b h => ?_⟩
    · simp [inorder] at h
    · refine ⟨yc, x, nullNode, p, ?_⟩
      rw [predecessorNode, e]
      have h2 := congrArg List.getLast? h
      rw [List.getLast?_append, hh] at h2
      simp at h2
      rw [h2]

section Ordered
variable [LinearOrder α]

theorem searchNode_split (t : Node α) (a : α) (l1 rest : List α)
    (hs : (inorder t).Sorted (· ≤ ·)) (hd : (inorder t).Nodup) (e : inorder t = l1 ++ a :: rest) :
    ∃ c l r zpath, searchNode a t [] = some (node c l a r, zpath) ∧
      pathBefore zpath ++ inorder l = l1 ∧ inorder r ++ pathAfter zpath = rest := by
  obtain ⟨c, l, r, zpath, e1, e2⟩ := searchNode_decomp t a hs (by rw [e]; simp)
  refine ⟨c, l, r, zpath, e1, ?_⟩
  rw [e] at hd e2
  have hd' := hd
  simp only [List.nodup_append, List.nodup_cons] at hd'
  have hx : a ∉ l1 := fun h => hd'.2.2 h (List.mem_cons_self _ _)
  have := (List.append_cons_inj_of_not_mem hx hd'.2.1.1).1 e2
  exact ⟨this.1.symm, this.2.2.symm⟩

/-- C11: predecessor correctness. On a tree built by `insert` and `del` that holds distinct
keys, for two keys `a`, `b` adjacent in the (sorted) in-order sequence `pred(b)` returns `a`
and prints nothing, and for the smallest key `predecessorNode` returns null, so that `pred`
prints its diagnostic and returns `T{}`. -/
theorem pred_correct [Inhabited α] (t : Node α) (h : Reachable t) (hd : (inorder t).Nodup) :
    (∀ l1 a b l2, inorder t = l1 ++ a :: b :: l2 → pred t b = (a, [])) ∧
    (∀ a l2, inorder t = a :: l2 →
      predecessorNode (searchNode a t []) = none ∧
      pred t a = (default, [("pred called with invalid argument: ", a)])) := by
  have hs := h.inv.2
  constructor
  · intro l1 a b l2 e
    have e' : inorder t = (l1 ++ [a]) ++ b :: l2 := by simp [e]
    obtain ⟨c, l, r, zpath, e1, e2, -⟩ := searchNode_split t b (l1 ++ [a]) l2 hs hd e'
    obtain ⟨c1, l3, r1, p, e3⟩ := (predecessorNode_spec c l b r zpath).2 l1 a e2
    simp [pred, e1, e3]
  · intro a l2 e
    obtain ⟨c, l, r, zpath, e1, e2, -⟩ := searchNode_split t a [] l2 hs hd (by simpa using e)
    have e3 := (predecessorNode_spec c l a r zpath).1 e2
    rw [e1]
    exact ⟨e3, by simp [pred, e1, e3]⟩

/-- Witness of C11 on the tree built by inserting 8, 100, 22, 28, 26. -/
theorem pred_correct_witness :
    Reachable (node black (node black nullNode 8 nullNode) 22
      (node black (node red nullNode 26 nullNode) 28 (node red nullNode 100 nullNode))) ∧
    (inorder (node black (node black nullNode 8 nullNode) 22
      (node black (node red nullNode 26 nullNode) 28 (node red nullNode 100 nullNode)))).Nodup ∧
    pred (node black (node black nullNode 8 nullNode) 22
      (node black (node red nullNode 26 nullNode) 28 (node red nullNode 100 nullNode))) 28
      = (26, []) ∧
    predecessorNode (searchNode 8 (node black (node black nullNode 8 nullNode) 22
      (node black (node red nullNode 26 nullNode) 28 (node red nullNode 100 nullNode))) [])
      = none :=
  ⟨⟨[Op.insert 8, Op.insert 100, Op.insert 22, Op.insert 28, Op.insert 26], by decide⟩,
    by decide,
    (pred_correct _ ⟨[Op.insert 8, Op.insert 100, Op.insert 22, Op.insert 28, Op.insert 26],
      by decide⟩ (by decide)).1 [8, 22] 26 28 [100] (by decide),
    ((pred_correct _ ⟨[Op.insert 8, Op.insert 100, Op.insert 22, Op.insert 28, Op.insert 26],
      by decide⟩ (by decide)).2 8 [22, 26, 28, 100] (by decide)).1⟩

end Ordered

theorem min_node [Inhabited α] (c : Color) (l : Node α) (v : α) (r : Node α) :
    (inorder (node c l v r)).head? = some (min (node c l v r)) := by
  obtain ⟨yc, yv, x, p, e, h⟩ := minimum_head c l v r []
  rw [h, min, e]

theorem max_node [Inhabited α] (c : Color) (l : Node α) (v : α) (r : Node α) :
    (inorder (node c l v r)).getLast? = some (max (node c l v r)) := by
  obtain ⟨yc, x, yv, p, e, h⟩ := maximum_last c l v r []
  rw [h, max, e]

/-- C12: `min()` and `max()` match the in-order traversal. On every non-empty tree, so on
every non-empty tree built by `insert` and `del`, `min()` is the first and `max()` the last
key of the in-order sequence; on the empty tree both return `T{}`. -/
theorem min_max_match_inorder [Inhabited α] (t : Node α) (hne : t ≠ nullNode) :
    (inorder t).head? = some (min t) ∧ (inorder t).getLast? = some (max t) ∧
    min (nullNode : Node α) = default ∧ max (nullNode : Node α) = default := by
  cases t with
  | nullNode => exact absurd rfl hne
  | node c l v r => exact ⟨min_node c l v r, max_node c l v r, rfl, rfl⟩

/-- Witness of C12 on the tree built by inserting 8, 100, 22, 28, 26: `min()` is 8 and
`max()` is 100. -/
theorem min_max_match_inorder_witness :
    node black (node black nullNode 8 nullNode) 22
      (node black (node red nullNode 26 nullNode) 28 (node red nullNode 100 nullNode))
      ≠ (nullNode : Node Nat) ∧
    (inorder (node black (node black nullNode 8 nullNode) 22
      (node black (node red nullNode 26 nullNode) 28 (node red nullNode 100 nullNode)))).head?
      = some 8 ∧
    (inorder (node black (node black nullNode 8 nullNode) 22
      (node black (node red nullNode 26 nullNode) 28 (node red nullNode 100 nullNode)))).getLast?
      = some 100 ∧
    min (nullNode : Node Nat) = 0 ∧ max (nullNode : Node Nat) = 0 :=
  ⟨by decide,
    min_max_match_inorder (node black (node black nullNode 8 nullNode) 22
      (node black (node red nullNode 26 nullNode) 28 (node red nullNode 100 nullNode)))
      (by decide)⟩

section Ordered
variable [LinearOrder α]

theorem del_present (t : Node α) (k : α) (hinv : RBInvariants t)
    (hs : (inorder t).Sorted (· ≤ ·)) (hk : k ∈ inorder t) :
    ∃ t1, del t k = some (true, t1) ∧ RBInvariants t1 ∧ inorder t1 = (inorder t).erase k := by
  obtain ⟨b, t1, e, hinv1⟩ := del_some t k hinv
  have hb : b = true := by
    cases b with
    | true => rfl
    | false =>
      have := (del_false t k t1 e).2
      rw [← Bool.not_eq_true, search_iff_mem k t hs] at this
      exact absurd hk this
  subst hb
  obtain ⟨l1, l2, e1, e2⟩ := del_true_inorder t k t1 e
  exact ⟨t1, e, hinv1, by rw [e2]; exact erase_of_sorted_split k _ l1 l2 hs e1⟩

/-- C13: insert then delete leaves the tree observably identical. On a tree built by `insert`
and `del` and for every key `k`, `insert(k)` followed by `del(k)` returns true, the in-order
key sequence afterwards equals the one before the insert, and `validRBTree` prints the same
(nothing) as before. -/
theorem insert_then_del (t : Node α) (k : α) (h : Reachable t) :
    ∃ t1 t2, insert t k = some t1 ∧ del t1 k = some (true, t2) ∧ inorder t2 = inorder t ∧
      validRBTree t2 = validRBTree t ∧ validRBTree t = [] := by
  obtain ⟨hinv, hs⟩ := h.inv
  obtain ⟨t1, e1, hinv1⟩ := insert_some t k hinv
  have hs1 := insert_sorted t k t1 hs e1
  have hp := insert_perm t k t1 e1
  obtain ⟨t2, e2, hinv2, he⟩ := del_present t1 k hinv1 hs1 (hp.mem_iff.2 (List.mem_cons_self _ _))
  have hperm : (inorder t2).Perm (inorder t) := by
    rw [he]
    have := hp.erase k
    rwa [List.erase_cons_head] at this
  have hs2 : (inorder t2).Sorted (· ≤ ·) := by
    rw [he]; exact hs1.sublist (List.erase_sublist k _)
  refine ⟨t1, t2, e1, e2, List.eq_of_perm_of_sorted hperm hs2 hs, ?_, ?_⟩
  · rw [(validRBTree_eq_nil_iff t2).2 hinv2, (validRBTree_eq_nil_iff t).2 hinv]
  · exact (validRBTree_eq_nil_iff t).2 hinv

/-- Witness of C13: inserting and deleting 26 on the tree built by inserting 8, 100, 22. -/
theorem insert_then_del_witness :
    Reachable (node black (node red nullNode 8 nullNode) 22 (node red nullNode 100 nullNode)) ∧
    ∃ t1 t2,
      insert (node black (node red nullNode 8 nullNode) 22 (node red nullNode 100 nullNode)) 26
        = some t1 ∧
      del t1 26 = some (true, t2) ∧
      inorder t2 = inorder (node black (node red nullNode 8 nullNode) 22
        (node red nullNode 100 nullNode)) ∧
      validRBTree t2 = validRBTree (node black (node red nullNode 8 nullNode) 22
        (node red nullNode 100 nullNode)) ∧
      validRBTree (node black (node red nullNode 8 nullNode) 22
        (node red nullNode 100 nullNode)) = [] :=
  ⟨⟨[Op.insert 8, Op.insert 100, Op.insert 22], by decide⟩,
    insert_then_del _ 26 ⟨[Op.insert 8, Op.insert 100, Op.insert 22], by decide⟩⟩

end Ordered

section Ordered
variable [LinearOrder α]

theorem searchNode_eq_none (t : Node α) (k : α) (hs : (inorder t).Sorted (· ≤ ·))
    (hk : k ∉ inorder t) : searchNode k t [] = none := by
  have h1 : (searchNode k t []).isSome = false := by
    rw [searchNode_isSome, ← Bool.not_eq_true, search_iff_mem k t hs]; exact hk
  cases e : searchNode k t [] with
  | none => rfl
  | some p => rw [e] at h1; cases h1

/-- C14: not-found behaviour of `suc` and `pred`. On a tree built by `insert` and `del` and
for a key `k` that is not in the tree, `suc(k)` and `pred(k)` print their "called with
invalid argument" diagnostic followed by `k` and return `T{}`. Both are `const` member
functions that write to no node: they are functions of the tree that return no new tree, so
the tree after the call is the tree before it. -/
theorem suc_pred_absent [Inhabited α] (t : Node α) (k : α) (h : Reachable t)
    (hk : k ∉ inorder t) :
    suc t k = (default, [("suc called with invalid argument: ", k)]) ∧
    pred t k = (default, [("pred called with invalid argument: ", k)]) := by
  have e := searchNode_eq_none t k h.inv.2 hk
  simp [suc, pred, e, successorNode, predecessorNode]

/-- Witness of C14: `suc(10)` and `pred(10)` on the tree built by inserting 8, 100, 22, 28,
26, which does not hold 10. -/
theorem suc_pred_absent_witness :
    Reachable (node black (node black nullNode 8 nullNode) 22
      (node black (node red nullNode 26 nullNode) 28 (node red nullNode 100 nullNode))) ∧
    10 ∉ inorder (node black (node black nullNode 8 nullNode) 22
      (node black (node red nullNode 26 nullNode) 28 (node red nullNode 100 nullNode))) ∧
    suc (node black (node black nullNode 8 nullNode) 22
      (node black (node red nullNode 26 nullNode) 28 (node red nullNode 100 nullNode))) 10
      = (0, [("suc called with invalid argument: ", 10)]) ∧
    pred (node black (node black nullNode 8 nullNode) 22
      (node black (node red nullNode 26 nullNode) 28 (node red nullNode 100 nullNode))) 10
      = (0, [("pred called with invalid argument: ", 10)]) :=
  ⟨⟨[Op.insert 8, Op.insert 100, Op.insert 22, Op.insert 28, Op.insert 26], by decide⟩,
    by decide,
    suc_pred_absent _ 10
      ⟨[Op.insert 8, Op.insert 100, Op.insert 22, Op.insert 28, Op.insert 26], by decide⟩
      (by decide)⟩

end Ordered

/-- C15: the concrete scenario on an `int` tree. After inserting 8, 100, 22, 28, 26 into the
empty tree the in-order sequence is 8, 22, 26, 28, 100, `min()` is 8, `max()` is 100,
`suc(22)` is 26, `pred(28)` is 26 and the tree is a valid red-black tree; then `del(26)` and
`del(100)` return true, `del(9)` returns false and leaves the tree as it is, and the in-order
sequence is 8, 22, 28. -/
theorem concrete_scenario :
    ∃ t5 t4 t3 : Node Int,
      run [Op.insert 8, Op.insert 100, Op.insert 22, Op.insert 28, Op.insert 26] nullNode
        = some t5 ∧
      displayInOrder t5 = some [8, 22, 26, 28, 100] ∧
      min t5 = 8 ∧ max t5 = 100 ∧
      suc t5 22 = (26, []) ∧ pred t5 28 = (26, []) ∧
      RBInvariants t5 ∧ validRBTree t5 = [] ∧
      del t5 26 = some (true, t4) ∧
      del t4 100 = some (true, t3) ∧
      del t3 9 = some (false, t3) ∧
      displayInOrder t3 = some [8, 22, 28] :=
  ⟨node black (node black nullNode 8 nullNode) 22
      (node black (node red nullNode 26 nullNode) 28 (node red nullNode 100 nullNode)),
    node black (node black nullNode 8 nullNode) 22
      (node black nullNode 28 (node red nullNode 100 nullNode)),
    node black (node black nullNode 8 nullNode) 22 (node black nullNode 28 nullNode),
    by decide, by decide, by decide, by decide, by decide, by decide, by decide, by decide,
    by decide, by decide, by decide, by decide⟩

theorem colorAt_zero_eq_zero (t : Node α) : colorAt 0 t = 0 ↔ t.color = black := by
  cases t with
  | nullNode => simp [colorAt]
  | node c l v r => cases c <;> simp [colorAt]

theorem colorAt_zero_eq_one (t : Node α) : colorAt 0 t = 1 ↔ t.color = red := by
  cases t with
  | nullNode => simp [colorAt]
  | node c l v r => cases c <;> simp [colorAt]

theorem leftBlackCountAt_zero : ∀ (t : Node α), leftBlackCountAt 0 t = leftBlackCount t
  | nullNode => rfl
  | node c l v r => by simp [leftBlackCountAt, leftBlackCount, leftBlackCountAt_zero l]

theorem rbTestAt_zero : ∀ (t : Node α) (cur total : Nat),
    rbTestAt 0 t cur total = some (rbTest t cur total)
  | nullNode, cur, total => by simp [rbTestAt, rbTest]
  | node c l v r, cur, total => by
    simp only [rbTestAt, rbTest, rbTestAt_zero l, rbTestAt_zero r, colorAt_zero_eq_one]

theorem validRBTreeAt_zero (t : Node α) : validRBTreeAt 0 t = some (validRBTree t) := by
  unfold validRBTreeAt validRBTree
  by_cases h : t.color = black
  · simp [(colorAt_zero_eq_zero t).2 h, h, rbTestAt_zero, leftBlackCountAt_zero]
  · have h' : ¬ colorAt 0 t = 0 := fun e => h ((colorAt_zero_eq_zero t).1 e)
    simp [h, h']

theorem rbTestAt_ne_nil (sc : Int) (hsc : sc ≠ 0) : ∀ (t : Node α) (cur total : Nat),
    rbTestAt sc t cur total ≠ some []
  | nullNode, cur, total => by
    by_cases h1 : sc = 1 <;> simp [rbTestAt, hsc, h1]
  | node c l v r, cur, total => by
    intro h
    simp only [rbTestAt] at h
    split at h
    · rename_i a b ha hb
      simp only [Option.some.injEq, List.append_eq_nil] at h
      exact rbTestAt_ne_nil sc hsc l _ _ (by rw [ha, h.1.2])
    · cases h

/-- C16: the validator is an exact oracle. For every tree of red and black real nodes with
non-null children and for every colour `sc` stored in the sentinel, `validRBTree` runs to its
end and prints no diagnostic if and only if the root is black, the sentinel is black
(`sc = 0`), no red node has a red child and every root-to-sentinel path has the same number
of black nodes. -/
theorem validRBTree_exact_oracle (sc : Int) (t : Node α) :
    validRBTreeAt sc t = some [] ↔
      (colorAt sc t = 0 ∧ sc = 0 ∧ noRedRed t ∧ equalBlackCounts t) := by
  by_cases hsc : sc = 0
  · subst hsc
    rw [validRBTreeAt_zero, Option.some.injEq, validRBTree_eq_nil_iff, colorAt_zero_eq_zero]
    simp [RBInvariants]
  · constructor
    · intro h
      exfalso
      unfold validRBTreeAt at h
      split at h
      · simp at h
      · exact rbTestAt_ne_nil sc hsc t _ _ h
    · intro h
      exact absurd h.2.1 hsc

theorem length_inorder : ∀ (t : Node α), (inorder t).length = t.size
  | nullNode => rfl
  | node c l v r => by
    simp [inorder, Node.size, length_inorder l, length_inorder r]; omega

theorem Bal.pow_le_size : ∀ (t : Node α) (b : Nat), Bal t b → 2 ^ b ≤ t.size + 1
  | nullNode, b, h => by
    have : b = 0 := h
    subst this; simp [Node.size]
  | node red l v r, b, h => by
    have := Bal.pow_le_size l b h.2.2.1
    simp only [Node.size]; omega
  | node black l v r, b, h => by
    obtain ⟨m, rfl, hl, hr⟩ := h
    have h1 := Bal.pow_le_size l m hl
    have h2 := Bal.pow_le_size r m hr
    simp only [Node.size, pow_succ]; omega

theorem Bal.height_le : ∀ (t : Node α) (b : Nat), Bal t b →
    height t ≤ 2 * b + (if t.color = red then 1 else 0)
  | nullNode, b, _ => by simp [height]
  | node red l v r, b, h => by
    obtain ⟨hl, hr, hbl, hbr⟩ := h
    have h1 := Bal.height_le l b hbl
    have h2 := Bal.height_le r b hbr
    simp only [hl, hr, reduceCtorEq, ↓reduceIte, Nat.add_zero] at h1 h2
    simp only [height, color_node, ↓reduceIte]
    omega
  | node black l v r, b, h => by
    obtain ⟨m, rfl, hbl, hbr⟩ := h
    have h1 := Bal.height_le l m hbl
    have h2 := Bal.height_le r m hbr
    have h1' : height l ≤ 2 * m + 1 := by split at h1 <;> omega
    have h2' : height r ≤ 2 * m + 1 := by split at h2 <;> omega
    simp only [height, color_node, reduceCtorEq, ↓reduceIte]
    omega

theorem searchVisits_le_height [LinearOrder α] (k : α) : ∀ (t : Node α),
    searchVisits t k ≤ height t
  | nullNode => by simp [searchVisits]
  | node c l x r => by
    have h1 := searchVisits_le_height k l
    have h2 := searchVisits_le_height k r
    simp only [searchVisits, height]
    split
    · omega
    · split <;> omega

theorem height_le_log (t : Node α) (h : RBInvariants t) :
    height t ≤ 2 * Nat.log 2 (t.size + 1) ∧ 2 ^ height t ≤ (t.size + 1) ^ 2 := by
  obtain ⟨hc, b, hb⟩ := (rbInvariants_iff t).1 h
  have h1 := Bal.height_le t b hb
  simp only [hc, reduceCtorEq, ↓reduceIte, Nat.add_zero] at h1
  have h2 := Bal.pow_le_size t b hb
  have h3 : b ≤ Nat.log 2 (t.size + 1) :=
    (Nat.pow_le_iff_le_log (by decide) (by omega)).1 h2
  refine ⟨by omega, ?_⟩
  calc 2 ^ height t ≤ 2 ^ (2 * b) := Nat.pow_le_pow_right (by decide) h1
    _ = (2 ^ b) ^ 2 := by rw [Nat.mul_comm, Nat.pow_mul]
    _ ≤ (t.size + 1) ^ 2 := Nat.pow_le_pow_left h2 2

/-- C17: the height is logarithmic. After every finite sequence of `insert` and `del` applied
to the empty tree, with `n` the number of keys of the resulting tree, the number of real
nodes on the longest root-to-sentinel path is at most `2 * log2 (n + 1)` (also with the
logarithm rounded down, and equivalently `2 ^ height ≤ (n + 1) ^ 2`), and the descent of
`search` visits at most that many nodes for every key. -/
theorem height_logarithmic [LinearOrder α] (ops : List (Op α)) :
    ∃ t, run ops nullNode = some t ∧
      height t ≤ 2 * Nat.log 2 ((inorder t).length + 1) ∧
      2 ^ height t ≤ ((inorder t).length + 1) ^ 2 ∧
      ∀ k, searchVisits t k ≤ 2 * Nat.log 2 ((inorder t).length + 1) := by
  obtain ⟨t, e, hinv, -⟩ := run_nullNode ops
  obtain ⟨h1, h2⟩ := height_le_log t hinv
  refine ⟨t, e, ?_⟩
  rw [length_inorder]
  exact ⟨h1, h2, fun k => le_trans (searchVisits_le_height k t) h1⟩

/-- C18: rotations preserve the ordering. For every node `x` whose right child is a real
node, anywhere in a tree (`path` are its parents), `left_rotate(x)` is defined and leaves the
in-order key sequence of the whole tree unchanged, and `right_rotate` applied to the node
that moved up restores the original tree; likewise `right_rotate(x)` for every node `x`
whose left child is a real node, which `left_rotate` undoes. -/
theorem rotate_preserves_inorder (path : Path α) (c c1 : Color) (a b d : Node α) (v w : α) :
    (∃ t1, left_rotate (node c a v (node c1 b w d)) = some t1 ∧
      inorder (fill path t1) = inorder (fill path (node c a v (node c1 b w d))) ∧
      right_rotate t1 = some (node c a v (node c1 b w d))) ∧
    (∃ t2, right_rotate (node c (node c1 a w b) v d) = some t2 ∧
      inorder (fill path t2) = inorder (fill path (node c (node c1 a w b) v d)) ∧
      left_rotate t2 = some (node c (node c1 a w b) v d)) :=
  ⟨⟨_, rfl, by simp [inorder_fill, inorder], rfl⟩, ⟨_, rfl, by simp [inorder_fill, inorder], rfl⟩⟩

/-- C20: `search` agrees with the in-order traversal, equal keys included. After every finite
sequence of `insert` and `del` applied to the empty tree and for every key `k`, `search(k)`
returns true if and only if `k` occurs in the in-order key sequence of the resulting tree. -/
theorem search_iff_inorder [LinearOrder α] (ops : List (Op α)) (k : α) :
    ∃ t, run ops nullNode = some t ∧ (search t k = true ↔ k ∈ inorder t) := by
  obtain ⟨t, e, -, hs⟩ := run_nullNode ops
  exact ⟨t, e, search_iff_mem k t hs⟩

theorem rbDeleteFixupLoop_succ (fuel : Nat) (x : Node α) (f : Frame α) (rest : Path α) :
    rbDeleteFixupLoop (fuel + 1) x (f :: rest) =
      if x.color = red then some (x, f :: rest)
      else match rbDeleteFixupPass x (f :: rest) with
        | some (x1, path1) => rbDeleteFixupLoop fuel x1 path1
        | none => none := by
  cases f <;> rfl

theorem rbDelete_eq_unlink (z : Node α) (path : Path α) :
    rbDelete z path =
      match rbDeleteUnlink z path with
      | some (yc, x, xpath) => if yc = black then rbDeleteFixup x xpath else some (fill xpath x)
      | none => none := by
  match z with
  | nullNode => rfl
  | node zc nullNode zv zr => rfl
  | node zc (node lc ll lv lr) zv nullNode => rfl
  | node zc (node lc ll lv lr) zv (node rc rl rv rr) =>
    simp only [rbDelete, rbDeleteUnlink]
    split <;> rfl

theorem rbDeleteFixupPass_spec (x : Node α) (f : Frame α) (rest : Path α) (n : Nat)
    (hinv : DelInv x (f :: rest) n) (hxb : x.color = black) :
    SiblingsReal (f :: rest) ∧
    ∃ x1 path1 n1, rbDeleteFixupPass x (f :: rest) = some (x1, path1) ∧ DelInv x1 path1 n1 ∧
      2 * path1.length + (if x1.color = black then 1 else 0) < 2 * (rest.length + 1) + 1 := by
  match f, hinv with
  | Frame.left pc pv w, hinv =>
    obtain ⟨hp, hx, -⟩ := hinv
    have hx := hx hxb
    cases pc with
    | red =>
      obtain ⟨hwc, hbw, hh, hrest⟩ := hp
      obtain ⟨wl, wv, wr, rfl, -, -⟩ := hbw.black_pos hwc
      obtain ⟨x1, path1, n1, e, hinv1, hcase⟩ :=
        deleteFixLeft_spec x red pv (node black wl wv wr) rest n hx hbw rfl ⟨hh, hrest⟩
      refine ⟨trivial, x1, path1, n1, ?_, hinv1, ?_⟩
      · cases x <;> simpa [rbDeleteFixupPass] using e
      · rcases hcase with ⟨rfl, hc⟩ | rfl
        · simp only [hc, reduceCtorEq, ↓reduceIte]; omega
        · simp only [List.length_nil]; split <;> omega
    | black =>
      obtain ⟨hbw, hrest⟩ := hp
      by_cases hwc : w.color = black
      · obtain ⟨wl, wv, wr, rfl, -, -⟩ := hbw.black_pos hwc
        obtain ⟨x1, path1, n1, e, hinv1, hcase⟩ :=
          deleteFixLeft_spec x black pv (node black wl wv wr) rest n hx hbw rfl hrest
        refine ⟨trivial, x1, path1, n1, ?_, hinv1, ?_⟩
        · cases x <;> simpa [rbDeleteFixupPass] using e
        · rcases hcase with ⟨rfl, hc⟩ | rfl
          · split <;> omega
          · simp only [List.length_nil]; split <;> omega
      · have hwc : w.color = red := (Color.ne_black_iff _).1 hwc
        cases w with
        | nullNode => simp at hwc
        | node wc wl wv wr =>
        simp only [color_node] at hwc; subst hwc
        obtain ⟨hcl, hcr, hbwl, hbwr⟩ := hbw
        obtain ⟨x1, path1, n1, e, hinv1, hcase⟩ :=
          deleteFixLeft_spec x red pv wl (Frame.left black wv wr :: rest) n hx hbwl hcl
            ⟨rfl, ⟨hbwr, hrest⟩⟩
        obtain ⟨a, lv, b, hwl, -, -⟩ := hbwl.black_pos hcl
        refine ⟨by simp [SiblingsReal, hwl], x1, path1, n1, ?_, hinv1, ?_⟩
        · cases x <;> simpa [rbDeleteFixupPass, left_rotate, right_rotate] using e
        · rcases hcase with ⟨rfl, hc⟩ | rfl
          · simp only [hc, reduceCtorEq, ↓reduceIte, List.length_cons]; omega
          · simp only [List.length_nil]; split <;> omega
  | Frame.right pc w pv, hinv =>
    obtain ⟨hp, hx, -⟩ := hinv
    have hx := hx hxb
    cases pc with
    | red =>
      obtain ⟨hwc, hbw, hh, hrest⟩ := hp
      obtain ⟨wl, wv, wr, rfl, -, -⟩ := hbw.black_pos hwc
      obtain ⟨x1, path1, n1, e, hinv1, hcase⟩ :=
        deleteFixRight_spec x red pv (node black wl wv wr) rest n hx hbw rfl ⟨hh, hrest⟩
      refine ⟨trivial, x1, path1, n1, ?_, hinv1, ?_⟩
      · cases x <;> simpa [rbDeleteFixupPass] using e
      · rcases hcase with ⟨rfl, hc⟩ | rfl
        · simp only [hc, reduceCtorEq, ↓reduceIte]; omega
        · simp only [List.length_nil]; split <;> omega
    | black =>
      obtain ⟨hbw, hrest⟩ := hp
      by_cases hwc : w.color = black
      · obtain ⟨wl, wv, wr, rfl, -, -⟩ := hbw.black_pos hwc
        obtain ⟨x1, path1, n1, e, hinv1, hcase⟩ :=
          deleteFixRight_spec x black pv (node black wl wv wr) rest n hx hbw rfl hrest
        refine ⟨trivial, x1, path1, n1, ?_, hinv1, ?_⟩
        · cases x <;> simpa [rbDeleteFixupPass] using e
        · rcases hcase with ⟨rfl, hc⟩ | rfl
          · split <;> omega
          · simp only [List.length_nil]; split <;> omega
      · have hwc : w.color = red := (Color.ne_black_iff _).1 hwc
        cases w with
        | nullNode => simp at hwc
        | node wc wl wv wr =>
        simp only [color_node] at hwc; subst hwc
        obtain ⟨hcl, hcr, hbwl, hbwr⟩ := hbw
        obtain ⟨x1, path1, n1, e, hinv1, hcase⟩ :=
          deleteFixRight_spec x red pv wr (Frame.right black wl wv :: rest) n hx hbwr hcr
            ⟨rfl, ⟨hbwl, hrest⟩⟩
        obtain ⟨a, lv, b, hwr, -, -⟩ := hbwr.black_pos hcr
        refine ⟨by simp [SiblingsReal, hwr], x1, path1, n1, ?_, hinv1, ?_⟩
        · cases x <;> simpa [rbDeleteFixupPass, left_rotate, right_rotate] using e
        · rcases hcase with ⟨rfl, hc⟩ | rfl
          · simp only [hc, reduceCtorEq, ↓reduceIte, List.length_cons]; omega
          · simp only [List.length_nil]; split <;> omega

theorem fixupSafe_of_delInv : ∀ (k : Nat) (x : Node α) (path : Path α) (n : Nat),
    2 * path.length + (if x.color = black then 1 else 0) < k → DelInv x path n →
    FixupSafe x path := by
  intro k
  induction k with
  | zero => intro x path n h; simp at h
  | succ k ih =>
    intro x path n hk hinv
    match path, hk, hinv with
    | [], _, _ => exact FixupSafe.root x
    | f :: rest, hk, hinv =>
      by_cases hxc : x.color = red
      · exact FixupSafe.red x _ hxc
      · have hxb : x.color = black := (Color.ne_red_iff _).1 hxc
        obtain ⟨hs, x1, path1, n1, e, hinv1, hlt⟩ := rbDeleteFixupPass_spec x f rest n hinv hxb
        simp only [hxb, ↓reduceIte, List.length_cons] at hk
        exact FixupSafe.pass x _ x1 path1 hxb hs e (ih x1 path1 n1 (by omega) hinv1)

theorem bal_of_fill : ∀ (path : Path α) (z : Node α), RBInvariants (fill path z) →
    ∃ m, Bal z m ∧ PathBal path m ∧ (z.color = red → headBlack path)
  | [], z, h => by
    obtain ⟨hc, n, hb⟩ := (rbInvariants_iff _).1 h
    exact ⟨n, hb, trivial, fun hr => by rw [fill, hr] at hc; cases hc⟩
  | Frame.left red v r :: rest, z, h => by
    obtain ⟨m, hb, hp, hc⟩ := bal_of_fill rest (node red z v r) h
    obtain ⟨hz, hr, hbz, hbr⟩ := hb
    exact ⟨m, hbz, ⟨hr, hbr, hc rfl, hp⟩, fun h' => by rw [h'] at hz; cases hz⟩
  | Frame.right red l v :: rest, z, h => by
    obtain ⟨m, hb, hp, hc⟩ := bal_of_fill rest (node red l v z) h
    obtain ⟨hl, hz, hbl, hbz⟩ := hb
    exact ⟨m, hbz, ⟨hl, hbl, hc rfl, hp⟩, fun h' => by rw [h'] at hz; cases hz⟩
  | Frame.left black v r :: rest, z, h => by
    obtain ⟨m, hb, hp, -⟩ := bal_of_fill rest (node black z v r) h
    obtain ⟨k, rfl, hbz, hbr⟩ := hb
    exact ⟨k, hbz, ⟨hbr, hp⟩, fun _ => rfl⟩
  | Frame.right black l v :: rest, z, h => by
    obtain ⟨m, hb, hp, -⟩ := bal_of_fill rest (node black l v z) h
    obtain ⟨k, rfl, hbl, hbz⟩ := hb
    exact ⟨k, hbz, ⟨hbl, hp⟩, fun _ => rfl⟩

theorem rbDeleteUnlink_spec (zc : Color) (zl : Node α) (zv : α) (zr : Node α) (path : Path α)
    (m : Nat) (hb : Bal (node zc zl zv zr) m) (hp : PathBal path m)
    (hc : zc = red → headBlack path) :
    ∃ yc x xpath, rbDeleteUnlink (node zc zl zv zr) path = some (yc, x, xpath) ∧
      (yc = black → DelInv x xpath 0) := by
  have one : ∀ x : Node α, Bal (node zc nullNode zv x) m ∨ Bal (node zc x zv nullNode) m →
      zc = black → DelInv x path 0 := by
    intro x hx hzc
    subst hzc
    have hx0 : m = 1 ∧ Bal x 0 := by
      rcases hx with ⟨k, rfl, h1, h2⟩ | ⟨k, rfl, h1, h2⟩
      · have : k = 0 := h1
        subst this; exact ⟨rfl, h2⟩
      · have : k = 0 := h2
        subst this; exact ⟨rfl, h1⟩
    obtain ⟨rfl, hx0⟩ := hx0
    exact DelInv.of_bal hp hx0
  match zl, zr, hb with
  | nullNode, zr, hb => exact ⟨zc, zr, path, rfl, one zr (Or.inl hb)⟩
  | node lc ll lv lr, nullNode, hb => exact ⟨zc, _, path, rfl, one _ (Or.inr hb)⟩
  | node lc ll lv lr, node rc rl rv rr, hb =>
    obtain ⟨yc, yv, x, hy⟩ := minimum_left rc rl rv rr ([] : Path α)
    have hmin : minimum (node rc rl rv rr) [] =
        (node yc nullNode yv x, (minimum (node rc rl rv rr) []).2) := by
      rw [← hy]
    generalize (minimum (node rc rl rv rr) []).2 = rel at hmin
    have key : ∃ j, Bal (node yc nullNode yv x) j ∧
        PathBal (rel ++ Frame.right zc (node lc ll lv lr) yv :: path) j := by
      have h0 : ∃ k, Bal (node rc rl rv rr) k ∧
          PathBal (Frame.right zc (node lc ll lv lr) yv :: path) k ∧
          ((node rc rl rv rr).color = red →
            headBlack (Frame.right zc (node lc ll lv lr) yv :: path)) := by
        cases zc with
        | red =>
          obtain ⟨h1, h2, h3, h4⟩ := hb
          exact ⟨m, h4, ⟨h1, h3, hc rfl, hp⟩, fun h => by simp [h] at h2⟩
        | black =>
          obtain ⟨k, rfl, h3, h4⟩ := hb
          exact ⟨k, h4, ⟨h3, hp⟩, fun _ => rfl⟩
      obtain ⟨k, h1, h2, h3⟩ := h0
      have := minimum_inv (node rc rl rv rr) _ k h1 h2 h3
      rw [minimum_append, hmin] at this
      obtain ⟨j, h4, h5, -⟩ := this
      exact ⟨j, h4, h5⟩
    obtain ⟨j, hby, hpy⟩ := key
    refine ⟨yc, x, rel ++ Frame.right zc (node lc ll lv lr) yv :: path, ?_, ?_⟩
    · simp [rbDeleteUnlink, rbTransplant, hmin]
    · intro hyc
      subst hyc
      obtain ⟨k, rfl, h1, h2⟩ := hby
      have : k = 0 := h1
      subst this
      exact DelInv.of_bal hpy h2

/-- C19: delete-fixup never reads through the sentinel. When `rbDelete` removes a real node
`z` (with parents `zpath`) from a tree that satisfies the red-black invariants, it reaches
the test of `y_orig_color` with a pointer `x`; when that colour is black and
`rbDeleteFixup(x)` runs, the loop ends after finitely many passes, in every pass the parent
of `x` and the sibling `w` read are real nodes and no null pointer is dereferenced
(`FixupSafe`), `rbDeleteFixup` returns, and so does `rbDelete`. -/
theorem rbDeleteFixup_reads_defined (z : Node α) (zpath : Path α) (hz : z ≠ nullNode)
    (h : RBInvariants (fill zpath z)) :
    ∃ yc x xpath, rbDeleteUnlink z zpath = some (yc, x, xpath) ∧
      (yc = black → FixupSafe x xpath ∧ ∃ t1, rbDeleteFixup x xpath = some t1) ∧
      ∃ t2, rbDelete z zpath = some t2 := by
  obtain ⟨m, hb, hp, hc⟩ := bal_of_fill zpath z h
  cases z with
  | nullNode => exact absurd rfl hz
  | node zc zl zv zr =>
    obtain ⟨yc, x, xpath, e, hinv⟩ := rbDeleteUnlink_spec zc zl zv zr zpath m hb hp hc
    obtain ⟨t2, -, e2, -⟩ := rbDelete_bal zc zl zv zr zpath m hb hp hc
    refine ⟨yc, x, xpath, e, fun hyc => ?_, t2, e2⟩
    have hi := hinv hyc
    obtain ⟨t1, -, e1, -⟩ := rbDeleteFixup_bal x xpath 0 hi
    exact ⟨fixupSafe_of_delInv _ x xpath 0 (Nat.lt_succ_self _) hi, t1, e1⟩

/-- Witness of C19: deleting the black leaf 8, a left child whose sibling 28 is black with a
red far child, from the valid tree holding 8, 22, 28, 100. -/
theorem rbDeleteFixup_reads_defined_witness :
    node black nullNode (8 : Nat) nullNode ≠ nullNode ∧
    RBInvariants (fill [Frame.left black 22 (node black nullNode 28 (node red nullNode 100 nullNode))]
      (node black nullNode 8 nullNode)) ∧
    ∃ yc x xpath,
      rbDeleteUnlink (node black nullNode 8 nullNode)
        [Frame.left black 22 (node black nullNode 28 (node red nullNode 100 nullNode))]
        = some (yc, x, xpath) ∧
      (yc = black → FixupSafe x xpath ∧ ∃ t1, rbDeleteFixup x xpath = some t1) ∧
      ∃ t2, rbDelete (node black nullNode 8 nullNode)
        [Frame.left black 22 (node black nullNode 28 (node red nullNode 100 nullNode))]
        = some t2 :=
  ⟨by decide, by decide, rbDeleteFixup_reads_defined _ _ (by decide) (by decide)⟩

/-- C3: after every finite sequence of `insert` and `del` applied to the empty tree, duplicate
keys allowed, the sequence of operations returns a tree, `displayInOrder` terminates on it
and prints exactly the keys of the tree, left to right: the printed list is the in-order key
sequence, it has one entry per real node, every key `k` occurs in it as often as `insert(k)`
was called minus the number of `del(k)` that returned true, and it is in non-decreasing
order. -/
theorem displayInOrder_sorted [LinearOrder α] (ops : List (Op α)) :
    ∃ t keys, run ops nullNode = some t ∧ displayInOrder t = some keys ∧
      keys = inorder t ∧ keys.length = t.size ∧
      (∀ k, keys.count k + delTrueCount k ops nullNode = insertCount k ops) ∧
      keys.Sorted (· ≤ ·) := by
  obtain ⟨t, e, -, hs⟩ := run_nullNode ops
  refine ⟨t, inorder t, e, displayInOrder_eq t, rfl, length_inorder t, fun k => ?_, hs⟩
  have hb := count_balance k ops nullNode t (by simp [inorder]) rbInvariants_nullNode e
  simpa [inorder] using hb

end RBTree
